import Mathlib

/-!
Verification of the ordered-map engine of the `learning-dsa` repository:
shallow embeddings of the binary-search-tree modules under
`src/algorithms/bst/` and proofs of the specified invariants.

Keys are modelled as `Int`.  Treap priorities and the size-balance ratio
(Python floats) are modelled as `Rat`; every float value occurring in the
claims (`2.0` and products with small integers) is exactly representable,
so the order comparisons agree with the source.  Python `None` children
are the `nil` constructor; in-place mutation of the purely top-down
recursive procedures becomes rebuilding of the tree, and the
parent-pointer-based procedures (red-black fixup, splaying) are embedded
with an explicit zipper (the list of ancestors) standing for the chain of
`parent` pointers.
-/

/-- Dynamically-typed Python return values used by the facade: `None` or a
boolean.  `BST.delete` has no `return` statement, hence returns `None`. -/
inductive PyVal where
  | none : PyVal
  | bool (b : Bool) : PyVal
deriving DecidableEq

/-! ## `001_bst_fundamentals.py`: plain BST -/

namespace BSTF

/-- Binary-search-tree node (`BSTNode`): a key and two optional children. -/
inductive BSTree where
  | nil : BSTree
  | node (key : Int) (left right : BSTree) : BSTree
deriving DecidableEq

open BSTree

/-- `BST._insert_recursive`: descend by comparison, create a node at a `None`
pointer; an equal key falls through both comparisons and the node is
returned unchanged (duplicates are skipped). -/
def insertRec : BSTree → Int → BSTree
  | nil, key => node key nil nil
  | node k l r, key =>
    if key < k then node k (insertRec l key) r
    else if key > k then node k l (insertRec r key)
    else node k l r

/-- `BST.search`: iterative descent, `True` iff the key is hit. -/
def search : BSTree → Int → Bool
  | nil, _ => false
  | node k l r, key =>
    if key = k then true
    else if key < k then search l key
    else search r key

/-- `BST._find_min`: follow `left` pointers from a (non-`None`) node and
return the key reached. -/
def find_min : BSTree → Int
  | nil => 0
  | node k nil _ => k
  | node _ (node k' l' r') _ => find_min (node k' l' r')

/-- `BST._delete_recursive`: descend by comparison; at the matching node
remove it directly (`None` tests on the children, ≤ 1 child) or replace its
key by the successor (`_find_min` of the right child) and delete that key
from the right. -/
def deleteRec : BSTree → Int → BSTree
  | nil, _ => nil
  | node k l r, key =>
    if key < k then node k (deleteRec l key) r
    else if key > k then node k l (deleteRec r key)
    else if l = nil then r
    else if r = nil then l
    else node (find_min r) l (deleteRec r (find_min r))

/-- `BST.delete` mutates `self.root`; the new root. -/
def deleteRoot (t : BSTree) (key : Int) : BSTree := deleteRec t key

/-- The value returned by `BST.delete` (the method body has no `return`
statement, so the Python call evaluates to `None`). -/
def deleteRet (_t : BSTree) (_key : Int) : PyVal := PyVal.none

/-- `BST.in_order`: left, root, right. -/
def in_order : BSTree → List Int
  | nil => []
  | node k l r => in_order l ++ k :: in_order r

/-- One facade call of the `BST` class. -/
inductive Op where
  | ins (key : Int) : Op
  | del (key : Int) : Op
deriving DecidableEq

/-- Apply one operation to the tree held in `self.root`. -/
def applyOp (t : BSTree) : Op → BSTree
  | Op.ins k => insertRec t k
  | Op.del k => deleteRec t k

/-- Apply a sequence of facade calls starting from an empty tree. -/
def applyOps (ops : List Op) : BSTree := List.foldl applyOp nil ops

/-- BST-order invariant: all keys on the left are below the node key, all
keys on the right above it, recursively. -/
def Ordered : BSTree → Prop
  | nil => True
  | node k l r =>
      Ordered l ∧ Ordered r ∧
        (∀ x ∈ in_order l, x < k) ∧ (∀ x ∈ in_order r, k < x)

end BSTF

/-! ## `004_height_balanced_avl_trees_rotations_invariants.py`: AVL tree -/

namespace AVL

/-- AVL node (`AVLNode`): key, children and the cached `height` field
(`self.height = 1` on creation). -/
inductive AVLTree where
  | nil : AVLTree
  | node (key : Int) (left right : AVLTree) (height : Int) : AVLTree
deriving DecidableEq

open AVLTree

/-- `get_height`: the cached height, `0` for `None`. -/
def get_height : AVLTree → Int
  | nil => 0
  | node _ _ _ h => h

/-- `get_balance`: cached height of the left child minus that of the right. -/
def get_balance : AVLTree → Int
  | nil => 0
  | node _ l r _ => get_height l - get_height r

/-- `update_height`: recompute the cached height from the children. -/
def update_height : AVLTree → AVLTree
  | nil => nil
  | node k l r _ => node k l r (1 + max (get_height l) (get_height r))

/-- `node.key` accessor (only read under a non-`None` guard). -/
def keyT : AVLTree → Int
  | nil => 0
  | node k _ _ _ => k

/-- `node.left` accessor. -/
def leftT : AVLTree → AVLTree
  | nil => nil
  | node _ l _ _ => l

/-- `node.right` accessor. -/
def rightT : AVLTree → AVLTree
  | nil => nil
  | node _ _ r _ => r

/-- Assignment `root.left = ...` (the cached height is untouched). -/
def setLeft : AVLTree → AVLTree → AVLTree
  | nil, _ => nil
  | node k _ r h, l' => node k l' r h

/-- Assignment `root.right = ...`. -/
def setRight : AVLTree → AVLTree → AVLTree
  | nil, _ => nil
  | node k l _ h, r' => node k l r' h

/-- `rotate_left(z)`: `z.right = y.left; y.left = z`, then update both
cached heights (`z` first, then `y`); a missing right child returns `z`. -/
def rotate_left : AVLTree → AVLTree
  | nil => nil
  | node zk zl zr zh =>
    match zr with
    | nil => node zk zl nil zh
    | node yk yl yr yh =>
      update_height (node yk (update_height (node zk zl yl zh)) yr yh)

/-- `rotate_right(z)`: mirror image of `rotate_left`. -/
def rotate_right : AVLTree → AVLTree
  | nil => nil
  | node zk zl zr zh =>
    match zl with
    | nil => node zk nil zr zh
    | node yk yl yr yh =>
      update_height (node yk yl (update_height (node zk yr zr zh)) yh)

/-- The four balance cases of `insert_avl` after the height update, with
their guards (`balance` bound, `None` checks, key comparisons against the
child's key) in source order.  This names the tail of `insert_avl`'s body;
the recursion below applies it exactly where the source continues after
`update_height(root)`. -/
def balanceStep (key : Int) (root : AVLTree) : AVLTree :=
  let bal := get_balance root
  if bal > 1 ∧ leftT root ≠ nil ∧ key < keyT (leftT root) then
    rotate_right root
  else if bal < -1 ∧ rightT root ≠ nil ∧ key > keyT (rightT root) then
    rotate_left root
  else if bal > 1 ∧ leftT root ≠ nil ∧ key > keyT (leftT root) then
    rotate_right (setLeft root (rotate_left (leftT root)))
  else if bal < -1 ∧ rightT root ≠ nil ∧ key < keyT (rightT root) then
    rotate_left (setRight root (rotate_right (rightT root)))
  else root

/-- `insert_avl`: BST placement (an equal key goes right), height update,
then the four balance cases. -/
def insert_avl : AVLTree → Int → AVLTree
  | nil, key => node key nil nil 1
  | node k l r h, key =>
    balanceStep key (update_height
      (if key < k then node k (insert_avl l key) r h
       else node k l (insert_avl r key) h))

/-- `inorder` of the AVL module. -/
def keysA : AVLTree → List Int
  | nil => []
  | node k l r _ => keysA l ++ k :: keysA r

/-- True height of the tree: `0` for an absent subtree, `1` for a leaf. -/
def realHeight : AVLTree → Int
  | nil => 0
  | node _ l r _ => 1 + max (realHeight l) (realHeight r)

/-- True balance factor at the root. -/
def rbal : AVLTree → Int
  | nil => 0
  | node _ l r _ => realHeight l - realHeight r

/-- The AVL invariant of the claim, over true heights: every node satisfies
`|height(left) - height(right)| ≤ 1`. -/
def Balanced : AVLTree → Prop
  | nil => True
  | node _ l r _ => |realHeight l - realHeight r| ≤ 1 ∧ Balanced l ∧ Balanced r

instance instDecBalanced : (t : AVLTree) → Decidable (Balanced t)
  | nil => isTrue trivial
  | node _ l r _ =>
    haveI := instDecBalanced l
    haveI := instDecBalanced r
    decidable_of_iff (|realHeight l - realHeight r| ≤ 1 ∧ Balanced l ∧ Balanced r)
      Iff.rfl

/-- Every cached `height` field equals the true height of its subtree. -/
def HeightsOK : AVLTree → Prop
  | nil => True
  | node _ l r h =>
      h = 1 + max (realHeight l) (realHeight r) ∧ HeightsOK l ∧ HeightsOK r

end AVL

/-! ## `008_weight_balanced_size_balanced_bsts.py`: size-balanced BST -/

namespace SB

/-- Size-balanced node (`SizeBSTNode`): key, cached subtree `size`
(`self.size = 1` on creation) and children. -/
inductive SBTree where
  | nil : SBTree
  | node (key : Int) (left right : SBTree) (size : Int) : SBTree
deriving DecidableEq

open SBTree

/-- `get_size`: the cached size, `0` for `None`. -/
def get_size : SBTree → Int
  | nil => 0
  | node _ _ _ s => s

/-- `update_size`: `size = 1 + size(left) + size(right)`. -/
def update_size : SBTree → SBTree
  | nil => nil
  | node k l r _ => node k l r (1 + get_size l + get_size r)

/-- `node.left` accessor. -/
def leftS : SBTree → SBTree
  | nil => nil
  | node _ l _ _ => l

/-- `node.right` accessor. -/
def rightS : SBTree → SBTree
  | nil => nil
  | node _ _ r _ => r

/-- `rotate_left`: as in the AVL module but refreshing cached sizes. -/
def rotate_left : SBTree → SBTree
  | nil => nil
  | node zk zl zr zh =>
    match zr with
    | nil => node zk zl nil zh
    | node yk yl yr yh =>
      update_size (node yk (update_size (node zk zl yl zh)) yr yh)

/-- `rotate_right`: mirror image. -/
def rotate_right : SBTree → SBTree
  | nil => nil
  | node zk zl zr zh =>
    match zl with
    | nil => node zk nil zr zh
    | node yk yl yr yh =>
      update_size (node yk yl (update_size (node zk yr zr zh)) yh)

/-- `fix_sizebalance(node, ratio)`: if one child's size exceeds `ratio`
times the other's, rotate toward the lighter side, first rotating the heavy
child when its inner grandchild is strictly heavier (the source does not
re-check after rotating). -/
def fix_sizebalance (t : SBTree) (rat : Rat) : SBTree :=
  match t with
  | nil => nil
  | node k l r s =>
    if (get_size l : Rat) > rat * (get_size r : Rat) ∧ l ≠ nil then
      let l' := if get_size (rightS l) > get_size (leftS l) then rotate_left l else l
      rotate_right (node k l' r s)
    else if (get_size r : Rat) > rat * (get_size l : Rat) ∧ r ≠ nil then
      let r' := if get_size (leftS r) > get_size (rightS r) then rotate_right r else r
      rotate_left (node k l r' s)
    else node k l r s

/-- `insert_sizebst`: BST placement (an equal key goes right), size update,
then the balance fix with the configured ratio. -/
def insert_sizebst : SBTree → Int → Rat → SBTree
  | nil, key, _ => node key nil nil 1
  | node k l r s, key, rat =>
    fix_sizebalance (update_size
      (if key < k then node k (insert_sizebst l key rat) r s
       else node k l (insert_sizebst r key rat) s)) rat

/-- True subtree size (node count). -/
def realSize : SBTree → Int
  | nil => 0
  | node _ l r _ => 1 + realSize l + realSize r

/-- The claimed ratio property at ratio `2.0`, an absent child counting as
size `0`: at every node, neither child's size exceeds twice its sibling's. -/
def SizeRatioOK : SBTree → Prop
  | nil => True
  | node _ l r _ =>
      (realSize l : Rat) ≤ 2 * (realSize r : Rat) ∧
      (realSize r : Rat) ≤ 2 * (realSize l : Rat) ∧
      SizeRatioOK l ∧ SizeRatioOK r

instance instDecSizeRatioOK : (t : SBTree) → Decidable (SizeRatioOK t)
  | nil => isTrue trivial
  | node _ l r _ =>
    haveI := instDecSizeRatioOK l
    haveI := instDecSizeRatioOK r
    decidable_of_iff (realSize l ≤ 2 * realSize r ∧
        realSize r ≤ 2 * realSize l ∧
        SizeRatioOK l ∧ SizeRatioOK r)
      (by
        simp only [SizeRatioOK]
        refine and_congr ?_ (and_congr ?_ Iff.rfl) <;>
          (constructor <;> (intro h; exact_mod_cast h)))

/-- The ratio property restricted to nodes that have both children. -/
def SizeRatioOK2 : SBTree → Prop
  | nil => True
  | node _ l r _ =>
      (l ≠ nil → r ≠ nil →
        (realSize l : Rat) ≤ 2 * (realSize r : Rat) ∧
        (realSize r : Rat) ≤ 2 * (realSize l : Rat)) ∧
      SizeRatioOK2 l ∧ SizeRatioOK2 r

instance instDecSizeRatioOK2 : (t : SBTree) → Decidable (SizeRatioOK2 t)
  | nil => isTrue trivial
  | node _ l r _ =>
    haveI := instDecSizeRatioOK2 l
    haveI := instDecSizeRatioOK2 r
    decidable_of_iff ((l ≠ nil → r ≠ nil →
        realSize l ≤ 2 * realSize r ∧ realSize r ≤ 2 * realSize l) ∧
      SizeRatioOK2 l ∧ SizeRatioOK2 r)
      (by
        simp only [SizeRatioOK2]
        refine and_congr ?_ Iff.rfl
        refine imp_congr Iff.rfl (imp_congr Iff.rfl (and_congr ?_ ?_)) <;>
          (constructor <;> (intro h; exact_mod_cast h)))

/-- `fix_sizebalance` specialized to the exact ratio `2`, with the
`Int → Rat` casts in the two guards folded away (so that the kernel can
evaluate it); proved equal to `fix_sizebalance · 2` below. -/
def fix_sizebalance_int (t : SBTree) : SBTree :=
  match t with
  | nil => nil
  | node k l r s =>
    if get_size l > 2 * get_size r ∧ l ≠ nil then
      let l' := if get_size (rightS l) > get_size (leftS l) then rotate_left l else l
      rotate_right (node k l' r s)
    else if get_size r > 2 * get_size l ∧ r ≠ nil then
      let r' := if get_size (leftS r) > get_size (rightS r) then rotate_right r else r
      rotate_left (node k l r' s)
    else node k l r s

/-- `insert_sizebst` specialized to ratio `2` via `fix_sizebalance_int`. -/
def insert_sizebst_int : SBTree → Int → SBTree
  | nil, key => node key nil nil 1
  | node k l r s, key =>
    fix_sizebalance_int (update_size
      (if key < k then node k (insert_sizebst_int l key) r s
       else node k l (insert_sizebst_int r key) s))

/-- The tree of Scenario 5: keys `10,5,15,3,7,20,6` at ratio `2.0`. -/
def scenario5 : SBTree :=
  List.foldl (fun t k => insert_sizebst t k 2) nil [10, 5, 15, 3, 7, 20, 6]

end SB

/-! ## `011_b_trees_external_memory_disk.py`: B-tree

The node type nests lists of children, so the recursive procedures are
written with an explicit `fuel` argument bounding the recursion depth (the
Python recursion terminates because the tree is finite; every claim checked
here is a closed evaluation, for which any sufficiently large fuel gives
the value the Python code computes). -/

namespace BT

/-- `BTreeNode`: branching factor `t`, `leaf` flag, sorted `keys`, and
`children`. -/
inductive BTreeNode where
  | mk (t : Nat) (leaf : Bool) (keys : List Int) (children : List BTreeNode)

/-- `node.keys`. -/
def keysOf : BTreeNode → List Int
  | .mk _ _ ks _ => ks

/-- `node.children`. -/
def childrenOf : BTreeNode → List BTreeNode
  | .mk _ _ _ cs => cs

/-- `node.leaf`. -/
def leafOf : BTreeNode → Bool
  | .mk _ lf _ _ => lf

/-- The test `key > node.keys[i]` after a split. -/
def gtAt (ks : List Int) (i : Nat) (key : Int) : Bool :=
  match ks.get? i with
  | some y => decide (key > y)
  | none => false

/-- `btree_search`: per node, `i` counts the keys below the target
(`while i < len(keys) and key > keys[i]`); hit if `keys[i] == key`, fail at
a leaf, otherwise descend into `children[i]`. -/
def btree_search : Nat → Option BTreeNode → Int → Bool
  | _, none, _ => false
  | 0, some _, _ => false
  | Nat.succ f, some (.mk _ lf ks cs), key =>
    let i := (ks.takeWhile (fun x => x < key)).length
    match ks.get? i with
    | some y =>
      if y = key then true
      else if lf then false
      else
        match cs.get? i with
        | some c => btree_search f (some c) key
        | none => false
    | none =>
      if lf then false
      else
        match cs.get? i with
        | some c => btree_search f (some c) key
        | none => false

/-- `split_child(parent, i)`: the full child `children[i]` donates its last
`t-1` keys to a fresh sibling, its median moves up into `parent.keys[i]`,
and (for internal children) its last `t` children move along. -/
def split_child : BTreeNode → Nat → BTreeNode
  | .mk t lf ks cs, i =>
    match cs.get? i with
    | none => .mk t lf ks cs
    | some (.mk tc lc fks fcs) =>
      let newKeys := fks.drop t
      let median := fks.getD (t - 1) 0
      let keepKeys := fks.take (t - 1)
      let keepCh := if lc then fcs else fcs.take t
      let newCh := if lc then [] else fcs.drop t
      let newNode := BTreeNode.mk t lc newKeys newCh
      let child := BTreeNode.mk tc lc keepKeys keepCh
      .mk t lf (ks.insertIdx i median) (((cs.set i child).insertIdx (i + 1) newNode))

/-- The leaf-insertion loop of `btree_insert_nonfull`: scanning from the
right, keys strictly above the new key shift one slot; the new key lands
after any equal keys. -/
def insRev : List Int → Int → List Int
  | [], key => [key]
  | x :: xs, key => if key < x then x :: insRev xs key else key :: x :: xs

/-- `btree_insert_nonfull`: insert into a leaf in sorted position, else
descend into the child picked by the backward scan, splitting it first when
it is full (and stepping right past the promoted median if needed). -/
def btree_insert_nonfull : Nat → BTreeNode → Int → BTreeNode
  | 0, nd, _ => nd
  | Nat.succ f, .mk t lf ks cs, key =>
    if lf then .mk t lf ((insRev ks.reverse key).reverse) cs
    else
      let i := ks.length - (ks.reverse.takeWhile (fun x => key < x)).length
      match cs.get? i with
      | none => .mk t lf ks cs
      | some c =>
        if (keysOf c).length = 2 * t - 1 then
          match split_child (.mk t lf ks cs) i with
          | .mk t' lf' ks' cs' =>
            let i' := if gtAt ks' i key then i + 1 else i
            match cs'.get? i' with
            | none => .mk t' lf' ks' cs'
            | some c' => .mk t' lf' ks' (cs'.set i' (btree_insert_nonfull f c' key))
        else .mk t lf ks (cs.set i (btree_insert_nonfull f c key))

/-- `btree_insert`: an empty tree becomes a single leaf; a full root is
split under a fresh root first; otherwise insert non-full. -/
def btree_insert (fuel : Nat) (root : Option BTreeNode) (key : Int) (t : Nat) :
    BTreeNode :=
  match root with
  | none => .mk t true [key] []
  | some (.mk tr lf ks cs) =>
    if ks.length = 2 * t - 1 then
      match split_child (.mk t false [] [BTreeNode.mk tr lf ks cs]) 0 with
      | .mk t' lf' ks' cs' =>
        let i : Nat := if gtAt ks' 0 key then 1 else 0
        match cs'.get? i with
        | none => .mk t' lf' ks' cs'
        | some c => .mk t' lf' ks' (cs'.set i (btree_insert_nonfull fuel c key))
    else btree_insert_nonfull fuel (.mk tr lf ks cs) key

/-- `inorder_traverse` body: child `i`, then key `i`, then the single child
past the last key. -/
def inorderAux : Nat → List Int → List BTreeNode → List Int
  | 0, _, _ => []
  | Nat.succ f, ks, cs =>
    match ks, cs with
    | [], [] => []
    | [], .mk _ _ kc cc :: _ => inorderAux f kc cc
    | k :: ks', [] => k :: inorderAux f ks' []
    | k :: ks', .mk _ _ kc cc :: cs' => inorderAux f kc cc ++ k :: inorderAux f ks' cs'

/-- `inorder_traverse`. -/
def inorder_traverse (fuel : Nat) : Option BTreeNode → List Int
  | none => []
  | some (.mk _ _ ks cs) => inorderAux fuel ks cs

/-- Depths of all leaves of the tree (root depth `0`). -/
def leafDepths : Nat → BTreeNode → List Nat
  | 0, _ => []
  | Nat.succ f, .mk _ lf _ cs =>
    if lf then [0]
    else ((cs.map (leafDepths f)).flatten).map Nat.succ

/-- Every node strictly below this one holds between `t-1` and `2t-1`
keys. -/
def nonRootCountOK : Nat → Nat → BTreeNode → Bool
  | 0, _, _ => true
  | Nat.succ f, t, .mk _ _ _ cs =>
    cs.all fun c =>
      decide (t - 1 ≤ (keysOf c).length) && decide ((keysOf c).length ≤ 2 * t - 1) &&
        nonRootCountOK f t c

/-- The tree of Scenario 3: keys `10,20,5,6,12,30,7,17` at `t = 2`. -/
def scenario3 : Option BTreeNode :=
  List.foldl (fun acc k => some (btree_insert 32 acc k 2)) none
    [10, 20, 5, 6, 12, 30, 7, 17]

/-- Leaf depths of an optional root. -/
def leafDepthsOf (fuel : Nat) : Option BTreeNode → List Nat
  | none => []
  | some nd => leafDepths fuel nd

/-- Key-count bound check below an optional root. -/
def nonRootCountOKOf (fuel t : Nat) : Option BTreeNode → Bool
  | none => false
  | some nd => nonRootCountOK fuel t nd

end BT

/-! ## Treaps: `006_treap_randomized_bst_with_heap_priority.py` (max-heap
orientation, `insert_treap`) and `015_priority_queue_from_bst_treap.py`
(min-heap orientation, `treap_insert`).

Both files declare the same `TreapNode` shape (key, random `priority`,
children); the random draw `random.random()` made at node creation is the
injected parameter `p` of the insert functions, so the theorems quantify
over every outcome of the priority draws. -/

/-- `TreapNode`: key, priority, children. -/
inductive TreapTree where
  | nil : TreapTree
  | node (key : Int) (prio : Rat) (left right : TreapTree) : TreapTree
deriving DecidableEq

namespace Treap

open TreapTree

/-- `node.priority` accessor (read only under a non-`None` guard). -/
def prioOf : TreapTree → Rat
  | nil => 0
  | node _ p _ _ => p

/-- `rotate_left` of the treap modules (no cached fields). -/
def rotate_left : TreapTree → TreapTree
  | nil => nil
  | node zk zp zl zr =>
    match zr with
    | nil => node zk zp zl nil
    | node yk yp yl yr => node yk yp (node zk zp zl yl) yr

/-- `rotate_right`. -/
def rotate_right : TreapTree → TreapTree
  | nil => nil
  | node zk zp zl zr =>
    match zl with
    | nil => node zk zp nil zr
    | node yk yp yl yr => node yk yp yl (node zk zp yr zr)

/-- `insert_treap` (max-heap style): BST placement (an equal key goes
right) with priority `p` drawn at creation, then one rotation at this level
if the child's priority is strictly greater. -/
def insert_treap : TreapTree → Int → Rat → TreapTree
  | nil, key, p => node key p nil nil
  | node k kp l r, key, p =>
    if key < k then
      let l' := insert_treap l key p
      if l' ≠ nil ∧ prioOf l' > kp then rotate_right (node k kp l' r)
      else node k kp l' r
    else
      let r' := insert_treap r key p
      if r' ≠ nil ∧ prioOf r' > kp then rotate_left (node k kp l r')
      else node k kp l r'

/-- `treap_insert` of the priority-queue module (min-heap style): rotate
when the child's priority is strictly smaller. -/
def treap_insert : TreapTree → Int → Rat → TreapTree
  | nil, key, p => node key p nil nil
  | node k kp l r, key, p =>
    if key < k then
      let l' := treap_insert l key p
      if l' ≠ nil ∧ prioOf l' < kp then rotate_right (node k kp l' r)
      else node k kp l' r
    else
      let r' := treap_insert r key p
      if r' ≠ nil ∧ prioOf r' < kp then rotate_left (node k kp l r')
      else node k kp l r'

/-- A child's priority is at most `p` (`None` children impose nothing). -/
def childLe : TreapTree → Rat → Prop
  | nil, _ => True
  | node _ q _ _, p => q ≤ p

/-- A child's priority is at least `p`. -/
def childGe : TreapTree → Rat → Prop
  | nil, _ => True
  | node _ q _ _, p => p ≤ q

/-- Max-heap order on priorities: every node's priority is ≥ both
children's. -/
def MaxHeap : TreapTree → Prop
  | nil => True
  | node _ p l r => childLe l p ∧ childLe r p ∧ MaxHeap l ∧ MaxHeap r

/-- Min-heap order on priorities: every node's priority is ≤ both
children's. -/
def MinHeap : TreapTree → Prop
  | nil => True
  | node _ p l r => childGe l p ∧ childGe r p ∧ MinHeap l ∧ MinHeap r

/-- The multiset of all priorities in the tree. -/
def priosM : TreapTree → Multiset Rat
  | nil => 0
  | node _ p l r => p ::ₘ (priosM l + priosM r)

end Treap

/-! ## `007_splay_trees_self_adjusting_bst.py`: splay tree

`SplayNode` carries a `parent` back-pointer and `splay` walks it upward;
the chain of ancestors of the node being splayed is embedded as an explicit
zipper context (innermost parent first): each entry records on which side
the current subtree hangs, the parent's key, and the sibling subtree. -/

namespace Splay

/-- Tree of `SplayNode`s (the `parent` field is represented by the zipper
below). -/
inductive STree where
  | nil : STree
  | node (key : Int) (left right : STree) : STree
deriving DecidableEq

open STree

/-- Which child pointer of the parent the current subtree occupies. -/
inductive Dir where
  | L : Dir
  | R : Dir
deriving DecidableEq

/-- One ancestor on the path to the root: side, parent key, sibling. -/
structure Entry where
  dir : Dir
  key : Int
  sib : STree
deriving DecidableEq

/-- Reattach a subtree along its ancestor chain (no rotations). -/
def plug : STree → List Entry → STree
  | t, [] => t
  | t, ⟨Dir.L, k, s⟩ :: rest => plug (node k t s) rest
  | t, ⟨Dir.R, k, s⟩ :: rest => plug (node k s t) rest

/-- `splay(x)`: repeat zig / zig-zig / zig-zag steps until `x.parent` is
`None`.  One ancestor is consumed by a zig (parent is the root), two by the
double rotations; the rotations are the `rotate_left`/`rotate_right` of the
source written out on the zipper.  (`x` is a real node in every call; the
`nil` equations cover the vacuous rotations `rotate_*` refuses anyway.) -/
def splayGo : STree → List Entry → STree
  | t, [] => t
  | nil, ctx => plug nil ctx
  | node xk xl xr, ⟨Dir.L, pk, s⟩ :: [] => node xk xl (node pk xr s)
  | node xk xl xr, ⟨Dir.R, pk, s⟩ :: [] => node xk (node pk s xl) xr
  | node xk xl xr, ⟨Dir.L, pk, ps⟩ :: ⟨Dir.L, gk, gs⟩ :: rest =>
    splayGo (node xk xl (node pk xr (node gk ps gs))) rest
  | node xk xl xr, ⟨Dir.R, pk, ps⟩ :: ⟨Dir.R, gk, gs⟩ :: rest =>
    splayGo (node xk (node pk (node gk gs ps) xl) xr) rest
  | node xk xl xr, ⟨Dir.R, pk, ps⟩ :: ⟨Dir.L, gk, gs⟩ :: rest =>
    splayGo (node xk (node pk ps xl) (node gk xr gs)) rest
  | node xk xl xr, ⟨Dir.L, pk, ps⟩ :: ⟨Dir.R, gk, gs⟩ :: rest =>
    splayGo (node xk (node gk gs xl) (node pk xr ps)) rest

/-- The descent of `insert_splay`: record the path (`key < cur.key` goes
left, otherwise right), attach the new node at the `None` slot reached,
splay it, and return the top of the tree. -/
def insert_splay_go : STree → List Entry → Int → STree
  | nil, ctx, key => splayGo (node key nil nil) ctx
  | node k l r, ctx, key =>
    if key < k then insert_splay_go l (⟨Dir.L, k, r⟩ :: ctx) key
    else insert_splay_go r (⟨Dir.R, k, l⟩ :: ctx) key

/-- `insert_splay`. -/
def insert_splay (t : STree) (key : Int) : STree := insert_splay_go t [] key

/-- The loop of `search_splay`: splay the node that matches, or — when the
descent falls off at a `None` child — splay `last`, the node whose child
slot was `None`; an empty tree returns `None`. -/
def search_splay_go : STree → List Entry → Int → Option STree
  | nil, [], _ => none
  | nil, ⟨Dir.L, pk, s⟩ :: rest, _ => some (splayGo (node pk nil s) rest)
  | nil, ⟨Dir.R, pk, s⟩ :: rest, _ => some (splayGo (node pk s nil) rest)
  | node k l r, ctx, key =>
    if key = k then some (splayGo (node k l r) ctx)
    else if key < k then search_splay_go l (⟨Dir.L, k, r⟩ :: ctx) key
    else search_splay_go r (⟨Dir.R, k, l⟩ :: ctx) key

/-- `search_splay`. -/
def search_splay (t : STree) (key : Int) : Option STree := search_splay_go t [] key

/-- In-order traversal (`inorder`). -/
def inorderS : STree → List Int
  | nil => []
  | node k l r => inorderS l ++ k :: inorderS r

/-- Root key of a (non-empty) tree. -/
def rootKey : STree → Int
  | nil => 0
  | node k _ _ => k

/-- The key of the last node visited by the `search_splay` descent for a
key that is absent: the node at which the next child pointer is `None`. -/
def last_visited : STree → Int → Option Int
  | nil, _ => none
  | node k l r, key =>
    if key = k then some k
    else if key < k then
      match l with
      | nil => some k
      | node _ _ _ => last_visited l key
    else
      match r with
      | nil => some k
      | node _ _ _ => last_visited r key

end Splay

/-! ## `005_red_black_trees.py`: red-black tree

`RBNode` carries a `parent` back-pointer; `insert_rb` descends iteratively
and `insert_fixup` walks `parent`/`parent.parent` upward, recoloring and
rotating.  The ancestor chain of the node `x` being fixed is embedded as a
zipper (innermost parent first); each entry holds on which side `x` hangs,
the parent's color and key, and the sibling subtree.  The rotations of the
source (`rotate_left`/`rotate_right` with parent rewiring) appear below as
the corresponding local tree rearrangements on the zipper. -/

namespace RB

/-- `RED = True`. -/
abbrev RED : Bool := true

/-- `BLACK = False`. -/
abbrev BLACK : Bool := false

/-- Tree of `RBNode`s (the `parent` field is represented by the zipper). -/
inductive RBTree where
  | nil : RBTree
  | node (key : Int) (color : Bool) (left right : RBTree) : RBTree
deriving DecidableEq

open RBTree

/-- Which child pointer of the parent the current subtree occupies. -/
inductive RDir where
  | L : RDir
  | R : RDir
deriving DecidableEq

/-- One ancestor of `x`: side, parent color, parent key, sibling. -/
structure REntry where
  dir : RDir
  color : Bool
  key : Int
  sib : RBTree
deriving DecidableEq

/-- Reattach a subtree along its ancestor chain. -/
def plugR : RBTree → List REntry → RBTree
  | t, [] => t
  | t, ⟨RDir.L, c, k, s⟩ :: rest => plugR (node k c t s) rest
  | t, ⟨RDir.R, c, k, s⟩ :: rest => plugR (node k c s t) rest

/-- `root.color = BLACK` (the final line of `insert_fixup`). -/
def blacken : RBTree → RBTree
  | nil => nil
  | node k _ l r => node k BLACK l r

/-- `uncle and uncle.color == RED` (`None` is not red). -/
def isRed : RBTree → Bool
  | nil => false
  | node _ c _ _ => c

/-- The iterative BST descent of `insert_rb` (`key < current.key` goes
left, otherwise right; a `None` child is the attachment point), returning
the ancestor chain of the new node. -/
def descendRB : RBTree → Int → List REntry → List REntry
  | nil, _, ctx => ctx
  | node k c l r, key, ctx =>
    if key < k then
      match l with
      | nil => ⟨RDir.L, c, k, r⟩ :: ctx
      | node _ _ _ _ => descendRB l key (⟨RDir.L, c, k, r⟩ :: ctx)
    else
      match r with
      | nil => ⟨RDir.R, c, k, l⟩ :: ctx
      | node _ _ _ _ => descendRB r key (⟨RDir.R, c, k, l⟩ :: ctx)

/-- `insert_fixup(root, x)`: while `x.parent` is red — uncle red: recolor
parent and uncle black, grandparent red, continue from the grandparent;
uncle black or absent: make `x` an outer child by rotating its parent if
needed, recolor, rotate the grandparent, after which the loop exits.  A
black (or absent) parent exits the loop.  The root is forced black at the
end.  (`x` is a real node in every call of the source; the `nil` equations
are the defensive no-ops of the guarded rotations.) -/
def insert_fixup : RBTree → List REntry → RBTree
  | x, [] => blacken x
  | x, ⟨d, pc, pk, s⟩ :: rest =>
    if pc = BLACK then blacken (plugR x (⟨d, pc, pk, s⟩ :: rest))
    else
      match rest with
      | [] => blacken (plugR x [⟨d, pc, pk, s⟩])
      | ⟨gd, _, gk, u⟩ :: rrest =>
        match gd with
        | RDir.L =>
          if isRed u then
            insert_fixup
              (node gk RED
                (match d with
                  | RDir.L => node pk BLACK x s
                  | RDir.R => node pk BLACK s x)
                (blacken u)) rrest
          else
            match d, x with
            | RDir.L, _ =>
              blacken (plugR (node pk BLACK x (node gk RED s u)) rrest)
            | RDir.R, node xk _ xl xr =>
              blacken (plugR
                (node xk BLACK (node pk RED s xl) (node gk RED xr u)) rrest)
            | RDir.R, nil =>
              blacken (plugR nil (⟨d, pc, pk, s⟩ :: rest))
        | RDir.R =>
          if isRed u then
            insert_fixup
              (node gk RED (blacken u)
                (match d with
                  | RDir.L => node pk BLACK x s
                  | RDir.R => node pk BLACK s x)) rrest
          else
            match d, x with
            | RDir.R, _ =>
              blacken (plugR (node pk BLACK (node gk RED u s) x) rrest)
            | RDir.L, node xk _ xl xr =>
              blacken (plugR
                (node xk BLACK (node gk RED u xl) (node pk RED xr s)) rrest)
            | RDir.L, nil =>
              blacken (plugR nil (⟨d, pc, pk, s⟩ :: rest))

/-- `insert_rb`: place the new node `RED` by BST descent, then fix up. -/
def insert_rb (root : RBTree) (key : Int) : RBTree :=
  match root with
  | nil => insert_fixup (node key RED nil nil) []
  | node _ _ _ _ => insert_fixup (node key RED nil nil) (descendRB root key [])

/-- No red node has a red child. -/
def okRR : RBTree → Prop
  | nil => True
  | node _ c l r =>
      (c = RED → isRed l = false ∧ isRed r = false) ∧ okRR l ∧ okRR r

/-- Black height: `some n` when every root-to-`None` path holds exactly `n`
black nodes. -/
def bhOpt : RBTree → Option Nat
  | nil => some 0
  | node _ c l r =>
    match bhOpt l, bhOpt r with
    | some m, some n =>
        if m = n then some (m + (if c = BLACK then 1 else 0)) else none
    | _, _ => none

/-- The number of black nodes on each root-to-leaf (`None`) path. -/
def pathsBlackCounts : RBTree → List Nat
  | nil => [0]
  | node _ c l r =>
      (pathsBlackCounts l ++ pathsBlackCounts r).map
        (fun n => n + (if c = BLACK then 1 else 0))

/-- In-order keys of the red-black tree. -/
def keysR : RBTree → List Int
  | nil => []
  | node k _ l r => keysR l ++ k :: keysR r

/-- The three red-black invariants of the claim: no red node has a red
child, all root-to-leaf paths carry the same number of black nodes, and the
root is black. -/
def RBValid (t : RBTree) : Prop :=
  okRR t ∧ isRed t = false ∧ ∃ n, bhOpt t = some n

/-- Well-formedness of an ancestor chain for the red-red invariant, for a
subtree whose root redness is `c`: every sibling is clean, and a red parent
forces both the plugged subtree's root and the sibling root black. -/
def ctxRR : List REntry → Bool → Prop
  | [], _ => True
  | ⟨_, pc, _, s⟩ :: rest, c =>
      okRR s ∧ (pc = RED → c = false ∧ isRed s = false) ∧ ctxRR rest pc

/-- As `ctxRR`, but the innermost parent may be red above a red subtree
root: the one violation `insert_fixup` is repairing. -/
def ctxRRA : List REntry → Prop
  | [] => True
  | ⟨_, pc, _, s⟩ :: rest =>
      okRR s ∧ (pc = RED → isRed s = false) ∧ ctxRR rest pc

/-- Black height of the ancestor chain over a hole of black height `n`:
`some m` when every sibling's black height matches its level. -/
def ctxBH : List REntry → Nat → Option Nat
  | [], n => some n
  | ⟨_, pc, _, s⟩ :: rest, n =>
    match bhOpt s with
    | some m => if m = n then ctxBH rest (n + (if pc = BLACK then 1 else 0)) else none
    | none => none

/-- The multiset of keys of the tree. -/
def keysMR : RBTree → Multiset Int
  | nil => 0
  | node k _ l r => k ::ₘ (keysMR l + keysMR r)

/-- The multiset of keys stored along an ancestor chain. -/
def keysMCtx : List REntry → Multiset Int
  | [] => 0
  | ⟨_, _, k, s⟩ :: rest => k ::ₘ (keysMR s + keysMCtx rest)

end RB

namespace BSTF

open BSTree

theorem ordered_nil : Ordered nil := trivial

theorem sorted_in_order {t : BSTree} (h : Ordered t) :
    List.Pairwise (· < ·) (in_order t) := by
  induction t with
  | nil => simp [in_order]
  | node k l r ihl ihr =>
    obtain ⟨hl, hr, hlk, hkr⟩ := h
    simp only [in_order, List.pairwise_append, List.pairwise_cons]
    refine ⟨ihl hl, ⟨hkr, ihr hr⟩, ?_⟩
    intro a ha b hb
    rcases List.mem_cons.mp hb with rfl | hb
    · exact hlk a ha
    · exact lt_trans (hlk a ha) (hkr b hb)

theorem mem_insertRec {t : BSTree} {k x : Int}
    (h : x ∈ in_order (insertRec t k)) : x ∈ in_order t ∨ x = k := by
  induction t with
  | nil =>
    simp only [insertRec, in_order, List.mem_append, List.mem_cons] at h
    simp only [in_order, List.not_mem_nil, false_or]
    simpa using h
  | node key l r ihl ihr =>
    simp only [insertRec] at h
    split_ifs at h with h1 h2
    · simp only [in_order, List.mem_append, List.mem_cons] at h ⊢
      rcases h with h | h
      · rcases ihl h with h' | h'
        · exact Or.inl (Or.inl h')
        · exact Or.inr h'
      · exact Or.inl (Or.inr h)
    · simp only [in_order, List.mem_append, List.mem_cons] at h ⊢
      rcases h with h | h
      · exact Or.inl (Or.inl h)
      · rcases h with h | h
        · exact Or.inl (Or.inr (Or.inl h))
        · rcases ihr h with h' | h'
          · exact Or.inl (Or.inr (Or.inr h'))
          · exact Or.inr h'
    · exact Or.inl h

theorem ordered_insertRec {t : BSTree} (h : Ordered t) (k : Int) :
    Ordered (insertRec t k) := by
  induction t with
  | nil => simp [insertRec, Ordered, in_order]
  | node key l r ihl ihr =>
    obtain ⟨hl, hr, hlk, hkr⟩ := h
    simp only [insertRec]
    split_ifs with h1 h2
    · refine ⟨ihl hl, hr, ?_, hkr⟩
      intro x hx
      rcases mem_insertRec hx with hx | rfl
      · exact hlk x hx
      · exact h1
    · refine ⟨hl, ihr hr, hlk, ?_⟩
      intro x hx
      rcases mem_insertRec hx with hx | rfl
      · exact hkr x hx
      · exact h2
    · exact ⟨hl, hr, hlk, hkr⟩

theorem find_min_mem {k : Int} {l r : BSTree} :
    find_min (node k l r) ∈ in_order (node k l r) := by
  induction l generalizing k r with
  | nil => simp [find_min, in_order]
  | node k' l' r' ihl _ =>
    simp only [find_min, in_order, List.mem_append, List.mem_cons]
    have := @ihl k' r'
    simp only [in_order, List.mem_append, List.mem_cons] at this
    tauto

theorem find_min_le {k : Int} {l r : BSTree}
    (h : Ordered (node k l r)) :
    ∀ x ∈ in_order (node k l r), find_min (node k l r) ≤ x := by
  induction l generalizing k r with
  | nil =>
    obtain ⟨_, _, _, hkr⟩ := h
    intro x hx
    simp only [find_min]
    simp only [in_order, List.append_nil, List.nil_append, List.mem_cons] at hx
    rcases hx with rfl | hx
    · exact le_refl x
    · exact le_of_lt (hkr x hx)
  | node k' l' r' ihl _ =>
    obtain ⟨hl, hr, hlk, hkr⟩ := h
    intro x hx
    simp only [find_min]
    simp only [in_order, List.mem_append, List.mem_cons] at hx
    have hminl : find_min (node k' l' r') ≤ k := by
      have hm := @find_min_mem k' l' r'
      exact le_of_lt (hlk _ hm)
    rcases hx with hx | hx
    · exact ihl hl x (by simpa [in_order] using hx)
    · rcases hx with rfl | hx
      · exact hminl
      · exact le_trans hminl (le_of_lt (hkr x hx))

theorem mem_deleteRec {t : BSTree} :
    ∀ {k x : Int}, x ∈ in_order (deleteRec t k) → x ∈ in_order t := by
  induction t with
  | nil =>
    intro k x h
    simpa [deleteRec] using h
  | node key l r ihl ihr =>
    intro k x h
    simp only [deleteRec] at h
    split_ifs at h with h1 h2 h3 h4
    · simp only [in_order, List.mem_append, List.mem_cons] at h ⊢
      rcases h with h | h
      · exact Or.inl (ihl h)
      · exact Or.inr h
    · simp only [in_order, List.mem_append, List.mem_cons] at h ⊢
      rcases h with h | h
      · exact Or.inl h
      · rcases h with h | h
        · exact Or.inr (Or.inl h)
        · exact Or.inr (Or.inr (ihr h))
    · simp only [in_order, List.mem_append, List.mem_cons]
      exact Or.inr (Or.inr h)
    · simp only [in_order, List.mem_append, List.mem_cons]
      exact Or.inl h
    · simp only [in_order, List.mem_append, List.mem_cons] at h ⊢
      rcases h with h | h
      · exact Or.inl h
      · rcases h with rfl | h
        · cases r with
          | nil => exact absurd rfl h4
          | node rk rl rr =>
            exact Or.inr (Or.inr (@find_min_mem rk rl rr))
        · exact Or.inr (Or.inr (ihr h))

theorem not_mem_deleteRec {t : BSTree} (h : Ordered t) :
    ∀ k : Int, k ∉ in_order (deleteRec t k) := by
  induction t with
  | nil =>
    intro k
    simp [deleteRec, in_order]
  | node key l r ihl ihr =>
    obtain ⟨hl, hr, hlk, hkr⟩ := h
    intro k
    simp only [deleteRec]
    split_ifs with h1 h2 h3 h4
    · simp only [in_order, List.mem_append, List.mem_cons]
      push_neg
      refine ⟨ihl hl k, ?_, ?_⟩
      · omega
      · intro hk
        exact absurd (hkr k hk) (by omega)
    · simp only [in_order, List.mem_append, List.mem_cons]
      push_neg
      refine ⟨?_, ?_, ihr hr k⟩
      · intro hk
        exact absurd (hlk k hk) (by omega)
      · omega
    · intro hk
      exact absurd (hkr k hk) (by omega)
    · intro hk
      exact absurd (hlk k hk) (by omega)
    · simp only [in_order, List.mem_append, List.mem_cons]
      push_neg
      refine ⟨?_, ?_, ?_⟩
      · intro hk
        exact absurd (hlk k hk) (by omega)
      · intro hk
        cases r with
        | nil => exact h4 rfl
        | node rk rl rr =>
          have := @find_min_mem rk rl rr
          exact absurd (hkr _ this) (by omega)
      · intro hk
        exact absurd (hkr k (mem_deleteRec hk)) (by omega)

theorem ordered_deleteRec {t : BSTree} (h : Ordered t) :
    ∀ k : Int, Ordered (deleteRec t k) := by
  induction t with
  | nil =>
    intro k
    simp [deleteRec, Ordered]
  | node key l r ihl ihr =>
    obtain ⟨hl, hr, hlk, hkr⟩ := h
    intro k
    simp only [deleteRec]
    split_ifs with h1 h2 h3 h4
    · exact ⟨ihl hl k, hr, fun x hx => hlk x (mem_deleteRec hx), hkr⟩
    · exact ⟨hl, ihr hr k, hlk, fun x hx => hkr x (mem_deleteRec hx)⟩
    · exact hr
    · exact hl
    · cases r with
      | nil => exact absurd rfl h4
      | node rk rl rr =>
        have hmem := @find_min_mem rk rl rr
        have hkm : key < find_min (node rk rl rr) := hkr _ hmem
        refine ⟨hl, ihr hr _, ?_, ?_⟩
        · intro x hx
          exact lt_trans (hlk x hx) hkm
        · intro x hx
          have hx' := mem_deleteRec hx
          have hle := find_min_le hr x hx'
          have hne : x ≠ find_min (node rk rl rr) := by
            intro hxeq
            exact not_mem_deleteRec hr _ (hxeq ▸ hx)
          omega

theorem ordered_applyOp {t : BSTree} (h : Ordered t) (op : Op) :
    Ordered (applyOp t op) := by
  cases op with
  | ins k => exact ordered_insertRec h k
  | del k => exact ordered_deleteRec h k

theorem ordered_foldl {t : BSTree} (h : Ordered t) (ops : List Op) :
    Ordered (List.foldl applyOp t ops) := by
  induction ops generalizing t with
  | nil => exact h
  | cons op ops ih => exact ih (ordered_applyOp h op)

theorem insertRec_eq_of_search {t : BSTree} {k : Int}
    (h : search t k = true) : insertRec t k = t := by
  induction t with
  | nil => simp [search] at h
  | node key l r ihl ihr =>
    simp only [search] at h
    simp only [insertRec]
    rcases lt_trichotomy k key with hc | hc | hc
    · rw [if_neg (by omega), if_pos hc] at h
      rw [if_pos hc, ihl h]
    · rw [if_neg (by omega), if_neg (by omega)]
    · rw [if_neg (by omega), if_neg (by omega)] at h
      rw [if_neg (by omega), if_pos (by omega), ihr h]

theorem deleteRec_eq_of_not_mem {t : BSTree} {k : Int}
    (h : k ∉ in_order t) : deleteRec t k = t := by
  induction t with
  | nil => rfl
  | node key l r ihl ihr =>
    simp only [in_order, List.mem_append, List.mem_cons] at h
    push_neg at h
    obtain ⟨hl, hkey, hr⟩ := h
    simp only [deleteRec]
    split_ifs with h1 h2 h3 h4
    · rw [ihl hl]
    · rw [ihr hr]
    · omega
    · omega
    · omega

end BSTF

namespace AVL

open AVLTree

theorem realHeight_nonneg : ∀ t : AVLTree, 0 ≤ realHeight t
  | nil => le_refl 0
  | node _ l r _ => by
    have hl := realHeight_nonneg l
    have hr := realHeight_nonneg r
    simp only [realHeight]
    omega

theorem realHeight_node_pos (k : Int) (l r : AVLTree) (h : Int) :
    1 ≤ realHeight (node k l r h) := by
  have hl := realHeight_nonneg l
  have hr := realHeight_nonneg r
  simp only [realHeight]
  omega

theorem node_of_realHeight_pos {t : AVLTree} (h : 1 ≤ realHeight t) :
    ∃ k l r hh, t = node k l r hh := by
  cases t with
  | nil => simp [realHeight] at h
  | node k l r hh => exact ⟨k, l, r, hh, rfl⟩

theorem get_height_eq {t : AVLTree} (h : HeightsOK t) :
    get_height t = realHeight t := by
  cases t with
  | nil => rfl
  | node k l r hh =>
    obtain ⟨h1, _, _⟩ := h
    simp [get_height, realHeight, h1]

theorem keysA_update_height (t : AVLTree) :
    keysA (update_height t) = keysA t := by
  cases t <;> rfl

theorem keysA_rotate_left (t : AVLTree) :
    keysA (rotate_left t) = keysA t := by
  cases t with
  | nil => rfl
  | node zk zl zr zh =>
    cases zr with
    | nil => rfl
    | node yk yl yr yh =>
      simp [rotate_left, update_height, keysA, List.append_assoc]

theorem keysA_rotate_right (t : AVLTree) :
    keysA (rotate_right t) = keysA t := by
  cases t with
  | nil => rfl
  | node zk zl zr zh =>
    cases zl with
    | nil => rfl
    | node yk yl yr yh =>
      simp [rotate_right, update_height, keysA, List.append_assoc]

theorem keysA_balanceStep (key : Int) (root : AVLTree) :
    keysA (balanceStep key root) = keysA root := by
  simp only [balanceStep]
  split_ifs <;>
    cases root <;>
      simp [keysA_rotate_left, keysA_rotate_right, setLeft, setRight, leftT, rightT,
        keysA]

theorem keysA_insert_avl_node (key k : Int) (l r : AVLTree) (h : Int) :
    keysA (insert_avl (node k l r h) key) =
      if key < k then keysA (insert_avl l key) ++ k :: keysA r
      else keysA l ++ k :: keysA (insert_avl r key) := by
  simp only [insert_avl, keysA_balanceStep, keysA_update_height]
  split_ifs <;> simp [keysA]

theorem count_keysA_insert_avl (t : AVLTree) (key : Int) :
    (keysA (insert_avl t key)).count key = (keysA t).count key + 1 := by
  induction t with
  | nil => simp [insert_avl, keysA]
  | node k l r h ihl ihr =>
    rw [keysA_insert_avl_node]
    split_ifs with hlt <;>
      simp only [keysA, List.count_append, List.count_cons, ihl, ihr] <;> omega

theorem mem_keysA_insert_avl {t : AVLTree} {key x : Int}
    (h : x ∈ keysA (insert_avl t key)) : x = key ∨ x ∈ keysA t := by
  induction t with
  | nil => simpa [insert_avl, balanceStep, keysA] using h
  | node k l r hh ihl ihr =>
    rw [keysA_insert_avl_node] at h
    split_ifs at h with hlt <;>
      simp only [keysA, List.mem_append, List.mem_cons] at h ⊢ <;> tauto

theorem get_height_nil_eq : get_height nil = 0 := rfl

theorem get_height_node_eq (k : Int) (l r : AVLTree) (h : Int) :
    get_height (node k l r h) = h := rfl

theorem get_balance_node_eq (k : Int) (l r : AVLTree) (h : Int) :
    get_balance (node k l r h) = get_height l - get_height r := rfl

theorem realHeight_node_eq (k : Int) (l r : AVLTree) (h : Int) :
    realHeight (node k l r h) = 1 + max (realHeight l) (realHeight r) := rfl

theorem rbal_node_eq (k : Int) (l r : AVLTree) (h : Int) :
    rbal (node k l r h) = realHeight l - realHeight r := rfl

theorem balanced_node_iff (k : Int) (l r : AVLTree) (h : Int) :
    Balanced (node k l r h) ↔
      |realHeight l - realHeight r| ≤ 1 ∧ Balanced l ∧ Balanced r := Iff.rfl

theorem heightsOK_node_iff (k : Int) (l r : AVLTree) (h : Int) :
    HeightsOK (node k l r h) ↔
      h = 1 + max (realHeight l) (realHeight r) ∧ HeightsOK l ∧ HeightsOK r :=
  Iff.rfl

theorem rotate_right_node_eq (zk yk : Int) (yl yr zr : AVLTree) (zh yh : Int) :
    rotate_right (node zk (node yk yl yr yh) zr zh) =
      node yk yl (node zk yr zr (1 + max (get_height yr) (get_height zr)))
        (1 + max (get_height yl) (1 + max (get_height yr) (get_height zr))) := rfl

theorem rotate_left_node_eq (zk yk : Int) (zl yl yr : AVLTree) (zh yh : Int) :
    rotate_left (node zk zl (node yk yl yr yh) zh) =
      node yk (node zk zl yl (1 + max (get_height zl) (get_height yl))) yr
        (1 + max (1 + max (get_height zl) (get_height yl)) (get_height yr)) := rfl

theorem balanceStep_no_rot (key : Int) (root : AVLTree)
    (h1 : ¬ get_balance root > 1) (h2 : ¬ get_balance root < -1) :
    balanceStep key root = root := by
  simp only [balanceStep]
  rw [if_neg (fun hc => h1 hc.1), if_neg (fun hc => h2 hc.1),
    if_neg (fun hc => h1 hc.1), if_neg (fun hc => h2 hc.1)]

theorem balanceStep_ll (key : Int) (root : AVLTree)
    (hb : get_balance root > 1) (hl : leftT root ≠ nil)
    (hk : key < keyT (leftT root)) :
    balanceStep key root = rotate_right root := by
  simp only [balanceStep]
  rw [if_pos ⟨hb, hl, hk⟩]

theorem balanceStep_lr (key : Int) (root : AVLTree)
    (hb : get_balance root > 1) (hl : leftT root ≠ nil)
    (hk : key > keyT (leftT root)) :
    balanceStep key root = rotate_right (setLeft root (rotate_left (leftT root))) := by
  simp only [balanceStep]
  rw [if_neg (fun hc => absurd hc.2.2 (by omega)),
    if_neg (fun hc => absurd hc.1 (by omega)), if_pos ⟨hb, hl, hk⟩]

theorem balanceStep_rr (key : Int) (root : AVLTree)
    (hb : get_balance root < -1) (hr : rightT root ≠ nil)
    (hk : key > keyT (rightT root)) :
    balanceStep key root = rotate_left root := by
  simp only [balanceStep]
  rw [if_neg (fun hc => absurd hc.1 (by omega)), if_pos ⟨hb, hr, hk⟩]

theorem balanceStep_rl (key : Int) (root : AVLTree)
    (hb : get_balance root < -1) (hr : rightT root ≠ nil)
    (hk : key < keyT (rightT root)) :
    balanceStep key root = rotate_left (setRight root (rotate_right (rightT root))) := by
  simp only [balanceStep]
  rw [if_neg (fun hc => absurd hc.1 (by omega)),
    if_neg (fun hc => absurd hc.2.2 (by omega)),
    if_neg (fun hc => absurd hc.1 (by omega)), if_pos ⟨hb, hr, hk⟩]

theorem insert_avl_main {key : Int} : ∀ {t : AVLTree},
    Balanced t → HeightsOK t → key ∉ keysA t →
    Balanced (insert_avl t key) ∧ HeightsOK (insert_avl t key) ∧
      (realHeight (insert_avl t key) = realHeight t ∨
        realHeight (insert_avl t key) = realHeight t + 1) ∧
      (∀ k l r hh, t = node k l r hh →
        realHeight (insert_avl t key) = realHeight t + 1 →
        keyT (insert_avl t key) = k ∧
          (key < k → rbal (insert_avl t key) = 1) ∧
          (k < key → rbal (insert_avl t key) = -1)) := by
  intro t
  induction t with
  | nil =>
    intro _ _ _
    refine ⟨?_, ?_, ?_, ?_⟩
    · simp [insert_avl, balanceStep, Balanced, realHeight]
    · simp [insert_avl, balanceStep, HeightsOK, realHeight]
    · right
      simp [insert_avl, balanceStep, realHeight]
    · intro k l r hh heq _
      exact absurd heq (by simp)
  | node k l r hh ihl ihr =>
    intro hb hhok hmem
    obtain ⟨hbal, hbl, hbr⟩ := hb
    obtain ⟨hsteq, hhl, hhr⟩ := hhok
    rw [abs_le] at hbal
    have hmem' := hmem
    simp only [keysA, List.mem_append, List.mem_cons] at hmem'
    push_neg at hmem'
    obtain ⟨hkl, hkne, hkr⟩ := hmem'
    have hlnn : 0 ≤ realHeight l := realHeight_nonneg l
    have hrnn : 0 ≤ realHeight r := realHeight_nonneg r
    by_cases hlt : key < k
    · -- placement in the left subtree
      obtain ⟨bA, bB, bC, bD⟩ := ihl hbl hhl hkl
      have hghl' : get_height (insert_avl l key) = realHeight (insert_avl l key) :=
        get_height_eq bB
      have hghr : get_height r = realHeight r := get_height_eq hhr
      have hstep : insert_avl (node k l r hh) key =
          balanceStep key (node k (insert_avl l key) r
            (1 + max (get_height (insert_avl l key)) (get_height r))) := by
        simp only [insert_avl]
        rw [if_pos hlt]
        rfl
      have hgbal : get_balance (node k (insert_avl l key) r
          (1 + max (get_height (insert_avl l key)) (get_height r)))
          = realHeight (insert_avl l key) - realHeight r := by
        rw [get_balance_node_eq, hghl', hghr]
      rcases bC with hsame | hgrow
      · -- the left height did not change: all guards fail
        have hnr := balanceStep_no_rot key
          (node k (insert_avl l key) r
            (1 + max (get_height (insert_avl l key)) (get_height r)))
          (by rw [hgbal]; omega) (by rw [hgbal]; omega)
        rw [hstep, hnr]
        refine ⟨⟨by rw [abs_le]; omega, bA, hbr⟩, ⟨by rw [hghl', hghr], bB, hhr⟩, ?_, ?_⟩
        · simp only [realHeight_node_eq]
          omega
        · intro k0 l0 r0 h0 heq hgr
          cases heq
          simp only [realHeight_node_eq] at hgr
          exfalso
          omega
      · -- the left subtree grew by one
        by_cases hno : realHeight (insert_avl l key) - realHeight r ≤ 1
        · -- still no rotation
          have hnr := balanceStep_no_rot key
            (node k (insert_avl l key) r
              (1 + max (get_height (insert_avl l key)) (get_height r)))
            (by rw [hgbal]; omega) (by rw [hgbal]; omega)
          rw [hstep, hnr]
          refine ⟨⟨by rw [abs_le]; omega, bA, hbr⟩, ⟨by rw [hghl', hghr], bB, hhr⟩, ?_, ?_⟩
          · simp only [realHeight_node_eq]
            omega
          · intro k0 l0 r0 h0 heq hgr
            cases heq
            simp only [realHeight_node_eq] at hgr
            refine ⟨rfl, ?_, ?_⟩
            · intro _
              rw [rbal_node_eq]
              omega
            · intro hgt
              exact absurd hgt (by omega)
        · -- balance factor 2 at this node: a rotation fires
          have hbal2 : realHeight (insert_avl l key) - realHeight r = 2 := by omega
          have hlpos : 1 ≤ realHeight l := by omega
          obtain ⟨lk, ll, lr, lh, rfl⟩ := node_of_realHeight_pos hlpos
          obtain ⟨hkeyT, hbalL, hbalR⟩ := bD lk ll lr lh rfl hgrow
          have hklk : key ≠ lk := by
            intro he
            exact hkl (he ▸ (by simp [keysA] : lk ∈ keysA (node lk ll lr lh)))
          have hl'pos : 1 ≤ realHeight (insert_avl (node lk ll lr lh) key) := by omega
          obtain ⟨lk', A, B, lh', hl'eq⟩ := node_of_realHeight_pos hl'pos
          have hlkeq : lk' = lk := by
            rw [hl'eq] at hkeyT
            exact hkeyT
          subst hlkeq
          rw [hl'eq] at bA bB hghl' hgrow hbal2 hgbal hstep hbalL hbalR hno hl'pos
          obtain ⟨habAB, bAA, bAB⟩ := bA
          obtain ⟨hstAB, hhA, hhB⟩ := bB
          rw [abs_le] at habAB
          have hghA : get_height A = realHeight A := get_height_eq hhA
          have hghB : get_height B = realHeight B := get_height_eq hhB
          by_cases hkey2 : key < lk'
          · -- left-left: single right rotation
            have hrbal1 : realHeight A - realHeight B = 1 := by
              have := hbalL hkey2
              rw [rbal_node_eq] at this
              exact this
            have hrot := balanceStep_ll key
              (node k (node lk' A B lh') r
                (1 + max (get_height (node lk' A B lh')) (get_height r)))
              (by rw [hgbal]; omega) (by simp [leftT]) (by simpa [leftT, keyT] using hkey2)
            rw [hstep, hrot, rotate_right_node_eq]
            refine ⟨⟨?_, bAA, ?_, bAB, hbr⟩,
              ⟨?_, hhA, ?_, hhB, hhr⟩, ?_, ?_⟩
            · rw [abs_le]
              simp only [realHeight_node_eq] at *
              omega
            · rw [abs_le]
              simp only [realHeight_node_eq] at *
              omega
            · rw [hghA, hghB, hghr]
              simp only [realHeight_node_eq]
            · rw [hghB, hghr]
            · simp only [realHeight_node_eq] at *
              omega
            · intro k0 l0 r0 h0 heq hgr
              cases heq
              simp only [realHeight_node_eq] at *
              exfalso
              omega
          · -- left-right: rotate the left child left, then the node right
            have hkey3 : lk' < key := by omega
            have hrbalm1 : realHeight A - realHeight B = -1 := by
              have := hbalR hkey3
              rw [rbal_node_eq] at this
              exact this
            have hBpos : 1 ≤ realHeight B := by
              have := realHeight_nonneg A
              omega
            obtain ⟨ck, P, Q, chB, rfl⟩ := node_of_realHeight_pos hBpos
            obtain ⟨habPQ, bP, bQ⟩ := bAB
            obtain ⟨hstPQ, hhP, hhQ⟩ := hhB
            rw [abs_le] at habPQ
            have hghP : get_height P = realHeight P := get_height_eq hhP
            have hghQ : get_height Q = realHeight Q := get_height_eq hhQ
            have hrot := balanceStep_lr key
              (node k (node lk' A (node ck P Q chB) lh') r
                (1 + max (get_height (node lk' A (node ck P Q chB) lh'))
                  (get_height r)))
              (by rw [hgbal]; omega) (by simp [leftT])
              (by simpa [leftT, keyT] using hkey3)
            rw [hstep, hrot]
            simp only [leftT, setLeft, rotate_left_node_eq, rotate_right_node_eq,
              get_height_node_eq]
            refine ⟨⟨?_, ⟨?_, bAA, bP⟩, ?_, bQ, hbr⟩,
              ⟨?_, ⟨?_, hhA, hhP⟩, ?_, hhQ, hhr⟩, ?_, ?_⟩
            · rw [abs_le]
              simp only [realHeight_node_eq] at *
              omega
            · rw [abs_le]
              simp only [realHeight_node_eq] at *
              omega
            · rw [abs_le]
              simp only [realHeight_node_eq] at *
              omega
            · rw [hghA, hghP, hghQ, hghr]
              simp only [realHeight_node_eq]
            · rw [hghA, hghP]
            · rw [hghQ, hghr]
            · simp only [realHeight_node_eq] at *
              omega
            · intro k0 l0 r0 h0 heq hgr
              cases heq
              simp only [realHeight_node_eq] at *
              exfalso
              omega
    · -- placement in the right subtree (mirror image)
      have hgt : k < key := by omega
      obtain ⟨bA, bB, bC, bD⟩ := ihr hbr hhr hkr
      have hghr' : get_height (insert_avl r key) = realHeight (insert_avl r key) :=
        get_height_eq bB
      have hghl : get_height l = realHeight l := get_height_eq hhl
      have hstep : insert_avl (node k l r hh) key =
          balanceStep key (node k l (insert_avl r key)
            (1 + max (get_height l) (get_height (insert_avl r key)))) := by
        simp only [insert_avl]
        rw [if_neg hlt]
        rfl
      have hgbal : get_balance (node k l (insert_avl r key)
          (1 + max (get_height l) (get_height (insert_avl r key))))
          = realHeight l - realHeight (insert_avl r key) := by
        rw [get_balance_node_eq, hghl, hghr']
      rcases bC with hsame | hgrow
      · have hnr := balanceStep_no_rot key
          (node k l (insert_avl r key)
            (1 + max (get_height l) (get_height (insert_avl r key))))
          (by rw [hgbal]; omega) (by rw [hgbal]; omega)
        rw [hstep, hnr]
        refine ⟨⟨by rw [abs_le]; omega, hbl, bA⟩, ⟨by rw [hghl, hghr'], hhl, bB⟩, ?_, ?_⟩
        · simp only [realHeight_node_eq]
          omega
        · intro k0 l0 r0 h0 heq hgr
          cases heq
          simp only [realHeight_node_eq] at hgr
          exfalso
          omega
      · by_cases hno : realHeight l - realHeight (insert_avl r key) ≥ -1
        · have hnr := balanceStep_no_rot key
            (node k l (insert_avl r key)
              (1 + max (get_height l) (get_height (insert_avl r key))))
            (by rw [hgbal]; omega) (by rw [hgbal]; omega)
          rw [hstep, hnr]
          refine ⟨⟨by rw [abs_le]; omega, hbl, bA⟩, ⟨by rw [hghl, hghr'], hhl, bB⟩, ?_, ?_⟩
          · simp only [realHeight_node_eq]
            omega
          · intro k0 l0 r0 h0 heq hgr
            cases heq
            simp only [realHeight_node_eq] at hgr
            refine ⟨rfl, ?_, ?_⟩
            · intro hlt2
              exact absurd hlt2 (by omega)
            · intro _
              rw [rbal_node_eq]
              omega
        · have hbal2 : realHeight l - realHeight (insert_avl r key) = -2 := by omega
          have hrpos : 1 ≤ realHeight r := by omega
          obtain ⟨rk, rl, rr, rh, rfl⟩ := node_of_realHeight_pos hrpos
          obtain ⟨hkeyT, hbalL, hbalR⟩ := bD rk rl rr rh rfl hgrow
          have hkrk : key ≠ rk := by
            intro he
            exact hkr (he ▸ (by simp [keysA] : rk ∈ keysA (node rk rl rr rh)))
          have hr'pos : 1 ≤ realHeight (insert_avl (node rk rl rr rh) key) := by omega
          obtain ⟨rk', C, D, rh', hr'eq⟩ := node_of_realHeight_pos hr'pos
          have hrkeq : rk' = rk := by
            rw [hr'eq] at hkeyT
            exact hkeyT
          subst hrkeq
          rw [hr'eq] at bA bB hghr' hgrow hbal2 hgbal hstep hbalL hbalR hno hr'pos
          obtain ⟨habCD, bC', bD'⟩ := bA
          obtain ⟨hstCD, hhC, hhD⟩ := bB
          rw [abs_le] at habCD
          have hghC : get_height C = realHeight C := get_height_eq hhC
          have hghD : get_height D = realHeight D := get_height_eq hhD
          by_cases hkey2 : key > rk'
          · -- right-right: single left rotation
            have hrbal1 : realHeight C - realHeight D = -1 := by
              have := hbalR hkey2
              rw [rbal_node_eq] at this
              exact this
            have hrot := balanceStep_rr key
              (node k l (node rk' C D rh')
                (1 + max (get_height l) (get_height (node rk' C D rh'))))
              (by rw [hgbal]; omega) (by simp [rightT])
              (by simpa [rightT, keyT] using hkey2)
            rw [hstep, hrot, rotate_left_node_eq]
            refine ⟨⟨?_, ⟨?_, hbl, bC'⟩, bD'⟩,
              ⟨?_, ⟨?_, hhl, hhC⟩, hhD⟩, ?_, ?_⟩
            · rw [abs_le]
              simp only [realHeight_node_eq] at *
              omega
            · rw [abs_le]
              simp only [realHeight_node_eq] at *
              omega
            · rw [hghl, hghC, hghD]
              simp only [realHeight_node_eq]
            · rw [hghl, hghC]
            · simp only [realHeight_node_eq] at *
              omega
            · intro k0 l0 r0 h0 heq hgr
              cases heq
              simp only [realHeight_node_eq] at *
              exfalso
              omega
          · -- right-left: rotate the right child right, then the node left
            have hkey3 : key < rk' := by omega
            have hrbalm1 : realHeight C - realHeight D = 1 := by
              have := hbalL hkey3
              rw [rbal_node_eq] at this
              exact this
            have hCpos : 1 ≤ realHeight C := by
              have := realHeight_nonneg D
              omega
            obtain ⟨ck, P, Q, chC, rfl⟩ := node_of_realHeight_pos hCpos
            obtain ⟨habPQ, bP, bQ⟩ := bC'
            obtain ⟨hstPQ, hhP, hhQ⟩ := hhC
            rw [abs_le] at habPQ
            have hghP : get_height P = realHeight P := get_height_eq hhP
            have hghQ : get_height Q = realHeight Q := get_height_eq hhQ
            have hrot := balanceStep_rl key
              (node k l (node rk' (node ck P Q chC) D rh')
                (1 + max (get_height l)
                  (get_height (node rk' (node ck P Q chC) D rh'))))
              (by rw [hgbal]; omega) (by simp [rightT])
              (by simpa [rightT, keyT] using hkey3)
            rw [hstep, hrot]
            simp only [rightT, setRight, rotate_right_node_eq, rotate_left_node_eq,
              get_height_node_eq]
            refine ⟨⟨?_, ⟨?_, hbl, bP⟩, ?_, bQ, bD'⟩,
              ⟨?_, ⟨?_, hhl, hhP⟩, ?_, hhQ, hhD⟩, ?_, ?_⟩
            · rw [abs_le]
              simp only [realHeight_node_eq] at *
              omega
            · rw [abs_le]
              simp only [realHeight_node_eq] at *
              omega
            · rw [abs_le]
              simp only [realHeight_node_eq] at *
              omega
            · rw [hghl, hghP, hghQ, hghD]
              simp only [realHeight_node_eq]
            · rw [hghl, hghP]
            · rw [hghQ, hghD]
            · simp only [realHeight_node_eq] at *
              omega
            · intro k0 l0 r0 h0 heq hgr
              cases heq
              simp only [realHeight_node_eq] at *
              exfalso
              omega

theorem insert_avl_foldl {t : AVLTree}
    (hb : Balanced t) (hh : HeightsOK t) :
    ∀ ks : List Int, ks.Nodup → (∀ x ∈ ks, x ∉ keysA t) →
      Balanced (List.foldl insert_avl t ks) := by
  intro ks
  induction ks generalizing t with
  | nil =>
    intro _ _
    exact hb
  | cons a ks ih =>
    intro hnd hdisj
    obtain ⟨bA, bB, _, _⟩ :=
      insert_avl_main hb hh (hdisj a (List.mem_cons_self a ks))
    refine ih bA bB (List.Nodup.of_cons hnd) ?_
    intro x hx hx'
    rcases mem_keysA_insert_avl hx' with rfl | hx''
    · exact (List.nodup_cons.mp hnd).1 hx
    · exact hdisj x (List.mem_cons_of_mem a hx) hx''

end AVL

namespace Splay

open STree

theorem inorderS_plug_congr :
    ∀ (ctx : List Entry) {X Y : STree}, inorderS X = inorderS Y →
      inorderS (plug X ctx) = inorderS (plug Y ctx)
  | [], _, _, h => h
  | ⟨Dir.L, k, s⟩ :: rest, _, _, h =>
    inorderS_plug_congr rest (by simp [inorderS, h])
  | ⟨Dir.R, k, s⟩ :: rest, _, _, h =>
    inorderS_plug_congr rest (by simp [inorderS, h])

theorem inorderS_splayGo :
    ∀ (ctx : List Entry) (t : STree),
      inorderS (splayGo t ctx) = inorderS (plug t ctx)
  | [], t => by simp [splayGo, plug]
  | _ :: _, nil => by simp [splayGo]
  | ⟨Dir.L, pk, s⟩ :: [], node xk xl xr => by
    simp [splayGo, plug, inorderS, List.append_assoc]
  | ⟨Dir.R, pk, s⟩ :: [], node xk xl xr => by
    simp [splayGo, plug, inorderS, List.append_assoc]
  | ⟨Dir.L, pk, ps⟩ :: ⟨Dir.L, gk, gs⟩ :: rest, node xk xl xr => by
    simp only [splayGo, plug]
    rw [inorderS_splayGo rest]
    exact inorderS_plug_congr rest (by simp [inorderS, List.append_assoc])
  | ⟨Dir.R, pk, ps⟩ :: ⟨Dir.R, gk, gs⟩ :: rest, node xk xl xr => by
    simp only [splayGo, plug]
    rw [inorderS_splayGo rest]
    exact inorderS_plug_congr rest (by simp [inorderS, List.append_assoc])
  | ⟨Dir.R, pk, ps⟩ :: ⟨Dir.L, gk, gs⟩ :: rest, node xk xl xr => by
    simp only [splayGo, plug]
    rw [inorderS_splayGo rest]
    exact inorderS_plug_congr rest (by simp [inorderS, List.append_assoc])
  | ⟨Dir.L, pk, ps⟩ :: ⟨Dir.R, gk, gs⟩ :: rest, node xk xl xr => by
    simp only [splayGo, plug]
    rw [inorderS_splayGo rest]
    exact inorderS_plug_congr rest (by simp [inorderS, List.append_assoc])

theorem rootKey_splayGo :
    ∀ (ctx : List Entry) (xk : Int) (xl xr : STree),
      splayGo (node xk xl xr) ctx ≠ nil ∧
        rootKey (splayGo (node xk xl xr) ctx) = xk
  | [], xk, xl, xr => ⟨by simp [splayGo], by simp [splayGo, rootKey]⟩
  | ⟨Dir.L, pk, s⟩ :: [], xk, xl, xr => ⟨by simp [splayGo], by simp [splayGo, rootKey]⟩
  | ⟨Dir.R, pk, s⟩ :: [], xk, xl, xr => ⟨by simp [splayGo], by simp [splayGo, rootKey]⟩
  | ⟨Dir.L, pk, ps⟩ :: ⟨Dir.L, gk, gs⟩ :: rest, xk, xl, xr =>
    rootKey_splayGo rest xk xl (node pk xr (node gk ps gs))
  | ⟨Dir.R, pk, ps⟩ :: ⟨Dir.R, gk, gs⟩ :: rest, xk, xl, xr =>
    rootKey_splayGo rest xk (node pk (node gk gs ps) xl) xr
  | ⟨Dir.R, pk, ps⟩ :: ⟨Dir.L, gk, gs⟩ :: rest, xk, xl, xr =>
    rootKey_splayGo rest xk (node pk ps xl) (node gk xr gs)
  | ⟨Dir.L, pk, ps⟩ :: ⟨Dir.R, gk, gs⟩ :: rest, xk, xl, xr =>
    rootKey_splayGo rest xk (node gk gs xl) (node pk xr ps)

theorem search_splay_go_miss {key : Int} : ∀ {t : STree} (ctx : List Entry),
    t ≠ nil → key ∉ inorderS t →
    ∃ t', search_splay_go t ctx key = some t' ∧
      inorderS t' = inorderS (plug t ctx) ∧
      some (rootKey t') = last_visited t key := by
  intro t
  induction t with
  | nil =>
    intro ctx h _
    exact absurd rfl h
  | node k l r ihl ihr =>
    intro ctx _ hmem
    simp only [inorderS, List.mem_append, List.mem_cons] at hmem
    push_neg at hmem
    obtain ⟨hml, hmk, hmr⟩ := hmem
    simp only [search_splay_go]
    rw [if_neg hmk]
    by_cases hlt : key < k
    · rw [if_pos hlt]
      cases l with
      | nil =>
        refine ⟨splayGo (node k nil r) ctx, rfl, ?_, ?_⟩
        · rw [inorderS_splayGo]
        · rw [(rootKey_splayGo ctx k nil r).2]
          simp [last_visited, hmk, hlt]
      | node lk ll lr =>
        obtain ⟨t', heq, hin, hlast⟩ :=
          ihl (⟨Dir.L, k, r⟩ :: ctx) (by simp) hml
        refine ⟨t', heq, by simpa [plug] using hin, ?_⟩
        · rw [hlast]
          simp [last_visited, hmk, hlt]
    · rw [if_neg hlt]
      cases r with
      | nil =>
        refine ⟨splayGo (node k l nil) ctx, rfl, ?_, ?_⟩
        · rw [inorderS_splayGo]
        · rw [(rootKey_splayGo ctx k l nil).2]
          simp [last_visited, hmk, hlt]
      | node rk rl rr =>
        obtain ⟨t', heq, hin, hlast⟩ :=
          ihr (⟨Dir.R, k, l⟩ :: ctx) (by simp) hmr
        refine ⟨t', heq, by simpa [plug] using hin, ?_⟩
        · rw [hlast]
          simp [last_visited, hmk, hlt]

end Splay

namespace Treap

open TreapTree

theorem priosM_rotate_left (t : TreapTree) : priosM (rotate_left t) = priosM t := by
  cases t with
  | nil => rfl
  | node zk zp zl zr =>
    cases zr with
    | nil => rfl
    | node yk yp yl yr =>
      simp only [rotate_left, priosM, ← Multiset.singleton_add]
      abel

theorem priosM_rotate_right (t : TreapTree) : priosM (rotate_right t) = priosM t := by
  cases t with
  | nil => rfl
  | node zk zp zl zr =>
    cases zl with
    | nil => rfl
    | node yk yp yl yr =>
      simp only [rotate_right, priosM, ← Multiset.singleton_add]
      abel

theorem priosM_insert_treap : ∀ (t : TreapTree) (key : Int) (p : Rat),
    priosM (insert_treap t key p) = p ::ₘ priosM t
  | nil, key, p => by simp [insert_treap, priosM]
  | node k kp l r, key, p => by
    simp only [insert_treap]
    split_ifs with h1 h2 h3 <;>
      simp only [priosM_rotate_left, priosM_rotate_right, priosM,
        priosM_insert_treap l key p, priosM_insert_treap r key p,
        ← Multiset.singleton_add] <;> abel

theorem priosM_treap_insert : ∀ (t : TreapTree) (key : Int) (p : Rat),
    priosM (treap_insert t key p) = p ::ₘ priosM t
  | nil, key, p => by simp [treap_insert, priosM]
  | node k kp l r, key, p => by
    simp only [treap_insert]
    split_ifs with h1 h2 h3 <;>
      simp only [priosM_rotate_left, priosM_rotate_right, priosM,
        priosM_treap_insert l key p, priosM_treap_insert r key p,
        ← Multiset.singleton_add] <;> abel

theorem maxHeap_le_of_mem : ∀ {t : TreapTree}, MaxHeap t →
    ∀ {q : Rat}, q ∈ priosM t → ∀ {b : Rat}, childLe t b → q ≤ b := by
  intro t
  induction t with
  | nil =>
    intro _ q hq
    simp [priosM] at hq
  | node k p l r ihl ihr =>
    intro h q hq b hb
    obtain ⟨hcl, hcr, Hl, Hr⟩ := h
    simp only [priosM, Multiset.mem_cons, Multiset.mem_add] at hq
    have hpb : p ≤ b := hb
    rcases hq with rfl | hq | hq
    · exact hpb
    · exact le_trans (ihl Hl hq hcl) hpb
    · exact le_trans (ihr Hr hq hcr) hpb

theorem minHeap_ge_of_mem : ∀ {t : TreapTree}, MinHeap t →
    ∀ {q : Rat}, q ∈ priosM t → ∀ {b : Rat}, childGe t b → b ≤ q := by
  intro t
  induction t with
  | nil =>
    intro _ q hq
    simp [priosM] at hq
  | node k p l r ihl ihr =>
    intro h q hq b hb
    obtain ⟨hcl, hcr, Hl, Hr⟩ := h
    simp only [priosM, Multiset.mem_cons, Multiset.mem_add] at hq
    have hpb : b ≤ p := hb
    rcases hq with rfl | hq | hq
    · exact hpb
    · exact le_trans hpb (ihl Hl hq hcl)
    · exact le_trans hpb (ihr Hr hq hcr)

theorem maxHeap_insert_treap : ∀ {t : TreapTree}, MaxHeap t →
    ∀ (key : Int) (p : Rat), MaxHeap (insert_treap t key p) := by
  intro t
  induction t with
  | nil =>
    intro _ key p
    simp [insert_treap, MaxHeap, childLe]
  | node k kp l r ihl ihr =>
    intro hheap key p
    obtain ⟨hcl, hcr, Hl, Hr⟩ := hheap
    simp only [insert_treap]
    by_cases hlt : key < k
    · rw [if_pos hlt]
      by_cases hcond : insert_treap l key p ≠ nil ∧ prioOf (insert_treap l key p) > kp
      · rw [if_pos hcond]
        obtain ⟨hne, hgt⟩ := hcond
        have hheapl := ihl Hl key p
        have hprios := priosM_insert_treap l key p
        cases hl' : insert_treap l key p with
        | nil => exact absurd hl' hne
        | node lk lp A B =>
          rw [hl'] at hheapl hgt hprios
          obtain ⟨hclA, hclB, HA, HB⟩ := hheapl
          simp only [prioOf] at hgt
          simp only [priosM] at hprios
          have hlp : lp = p := by
            by_contra hne2
            have hmem : lp ∈ priosM l := by
              have hm : lp ∈ (p ::ₘ priosM l) := by
                rw [← hprios]
                simp
              rcases Multiset.mem_cons.mp hm with he | hm2
              · exact absurd he hne2
              · exact hm2
            have hle := maxHeap_le_of_mem Hl hmem (show childLe l kp from hcl)
            exact absurd (lt_of_le_of_lt hle hgt) (lt_irrefl _)
          subst hlp
          have hAB : priosM A + priosM B = priosM l :=
            (Multiset.cons_inj_right _).mp hprios
          have hBle : childLe B kp := by
            cases B with
            | nil => trivial
            | node bk bq bl br =>
              have hmemB : bq ∈ priosM l := by
                rw [← hAB]
                simp [priosM]
              exact maxHeap_le_of_mem Hl hmemB hcl
          exact ⟨hclA, le_of_lt hgt, HA, hBle, hcr, HB, Hr⟩
      · rw [if_neg hcond]
        push_neg at hcond
        have hle : childLe (insert_treap l key p) kp := by
          cases hl' : insert_treap l key p with
          | nil => trivial
          | node lk lp A B =>
            have := hcond (by rw [hl']; simp)
            rw [hl'] at this
            simpa [prioOf, childLe] using this
        exact ⟨hle, hcr, ihl Hl key p, Hr⟩
    · rw [if_neg hlt]
      by_cases hcond : insert_treap r key p ≠ nil ∧ prioOf (insert_treap r key p) > kp
      · rw [if_pos hcond]
        obtain ⟨hne, hgt⟩ := hcond
        have hheapr := ihr Hr key p
        have hprios := priosM_insert_treap r key p
        cases hr' : insert_treap r key p with
        | nil => exact absurd hr' hne
        | node rk rp A B =>
          rw [hr'] at hheapr hgt hprios
          obtain ⟨hclA, hclB, HA, HB⟩ := hheapr
          simp only [prioOf] at hgt
          simp only [priosM] at hprios
          have hrp : rp = p := by
            by_contra hne2
            have hmem : rp ∈ priosM r := by
              have hm : rp ∈ (p ::ₘ priosM r) := by
                rw [← hprios]
                simp
              rcases Multiset.mem_cons.mp hm with he | hm2
              · exact absurd he hne2
              · exact hm2
            have hle := maxHeap_le_of_mem Hr hmem (show childLe r kp from hcr)
            exact absurd (lt_of_le_of_lt hle hgt) (lt_irrefl _)
          subst hrp
          have hAB : priosM A + priosM B = priosM r :=
            (Multiset.cons_inj_right _).mp hprios
          have hAle : childLe A kp := by
            cases A with
            | nil => trivial
            | node ak aq al ar =>
              have hmemA : aq ∈ priosM r := by
                rw [← hAB]
                simp [priosM]
              exact maxHeap_le_of_mem Hr hmemA hcr
          exact ⟨le_of_lt hgt, hclB, ⟨hcl, hAle, Hl, HA⟩, HB⟩
      · rw [if_neg hcond]
        push_neg at hcond
        have hle : childLe (insert_treap r key p) kp := by
          cases hr' : insert_treap r key p with
          | nil => trivial
          | node rk rp A B =>
            have := hcond (by rw [hr']; simp)
            rw [hr'] at this
            simpa [prioOf, childLe] using this
        exact ⟨hcl, hle, Hl, ihr Hr key p⟩

theorem minHeap_treap_insert : ∀ {t : TreapTree}, MinHeap t →
    ∀ (key : Int) (p : Rat), MinHeap (treap_insert t key p) := by
  intro t
  induction t with
  | nil =>
    intro _ key p
    simp [treap_insert, MinHeap, childGe]
  | node k kp l r ihl ihr =>
    intro hheap key p
    obtain ⟨hcl, hcr, Hl, Hr⟩ := hheap
    simp only [treap_insert]
    by_cases hlt : key < k
    · rw [if_pos hlt]
      by_cases hcond : treap_insert l key p ≠ nil ∧ prioOf (treap_insert l key p) < kp
      · rw [if_pos hcond]
        obtain ⟨hne, hgt⟩ := hcond
        have hheapl := ihl Hl key p
        have hprios := priosM_treap_insert l key p
        cases hl' : treap_insert l key p with
        | nil => exact absurd hl' hne
        | node lk lp A B =>
          rw [hl'] at hheapl hgt hprios
          obtain ⟨hclA, hclB, HA, HB⟩ := hheapl
          simp only [prioOf] at hgt
          simp only [priosM] at hprios
          have hlp : lp = p := by
            by_contra hne2
            have hmem : lp ∈ priosM l := by
              have hm : lp ∈ (p ::ₘ priosM l) := by
                rw [← hprios]
                simp
              rcases Multiset.mem_cons.mp hm with he | hm2
              · exact absurd he hne2
              · exact hm2
            have hle := minHeap_ge_of_mem Hl hmem (show childGe l kp from hcl)
            exact absurd (lt_of_le_of_lt hle hgt) (lt_irrefl _)
          subst hlp
          have hAB : priosM A + priosM B = priosM l :=
            (Multiset.cons_inj_right _).mp hprios
          have hBle : childGe B kp := by
            cases B with
            | nil => trivial
            | node bk bq bl br =>
              have hmemB : bq ∈ priosM l := by
                rw [← hAB]
                simp [priosM]
              exact minHeap_ge_of_mem Hl hmemB hcl
          exact ⟨hclA, le_of_lt hgt, HA, hBle, hcr, HB, Hr⟩
      · rw [if_neg hcond]
        push_neg at hcond
        have hle : childGe (treap_insert l key p) kp := by
          cases hl' : treap_insert l key p with
          | nil => trivial
          | node lk lp A B =>
            have := hcond (by rw [hl']; simp)
            rw [hl'] at this
            simpa [prioOf, childGe] using this
        exact ⟨hle, hcr, ihl Hl key p, Hr⟩
    · rw [if_neg hlt]
      by_cases hcond : treap_insert r key p ≠ nil ∧ prioOf (treap_insert r key p) < kp
      · rw [if_pos hcond]
        obtain ⟨hne, hgt⟩ := hcond
        have hheapr := ihr Hr key p
        have hprios := priosM_treap_insert r key p
        cases hr' : treap_insert r key p with
        | nil => exact absurd hr' hne
        | node rk rp A B =>
          rw [hr'] at hheapr hgt hprios
          obtain ⟨hclA, hclB, HA, HB⟩ := hheapr
          simp only [prioOf] at hgt
          simp only [priosM] at hprios
          have hrp : rp = p := by
            by_contra hne2
            have hmem : rp ∈ priosM r := by
              have hm : rp ∈ (p ::ₘ priosM r) := by
                rw [← hprios]
                simp
              rcases Multiset.mem_cons.mp hm with he | hm2
              · exact absurd he hne2
              · exact hm2
            have hle := minHeap_ge_of_mem Hr hmem (show childGe r kp from hcr)
            exact absurd (lt_of_le_of_lt hle hgt) (lt_irrefl _)
          subst hrp
          have hAB : priosM A + priosM B = priosM r :=
            (Multiset.cons_inj_right _).mp hprios
          have hAle : childGe A kp := by
            cases A with
            | nil => trivial
            | node ak aq al ar =>
              have hmemA : aq ∈ priosM r := by
                rw [← hAB]
                simp [priosM]
              exact minHeap_ge_of_mem Hr hmemA hcr
          exact ⟨le_of_lt hgt, hclB, ⟨hcl, hAle, Hl, HA⟩, HB⟩
      · rw [if_neg hcond]
        push_neg at hcond
        have hle : childGe (treap_insert r key p) kp := by
          cases hr' : treap_insert r key p with
          | nil => trivial
          | node rk rp A B =>
            have := hcond (by rw [hr']; simp)
            rw [hr'] at this
            simpa [prioOf, childGe] using this
        exact ⟨hcl, hle, Hl, ihr Hr key p⟩

theorem maxHeap_foldl (ops : List (Int × Rat)) :
    ∀ t, MaxHeap t →
      MaxHeap (List.foldl (fun a kp => insert_treap a kp.1 kp.2) t ops) := by
  induction ops with
  | nil => exact fun t h => h
  | cons kp ops ih =>
    exact fun t h => ih _ (maxHeap_insert_treap h kp.1 kp.2)

theorem minHeap_foldl (ops : List (Int × Rat)) :
    ∀ t, MinHeap t →
      MinHeap (List.foldl (fun a kp => treap_insert a kp.1 kp.2) t ops) := by
  induction ops with
  | nil => exact fun t h => h
  | cons kp ops ih =>
    exact fun t h => ih _ (minHeap_treap_insert h kp.1 kp.2)

end Treap

namespace RB

open RBTree

theorem isRed_blacken (t : RBTree) : isRed (blacken t) = false := by
  cases t <;> rfl

theorem black_ne_red : ¬ (BLACK = RED) := by simp [RED, BLACK]

theorem okRR_blacken {t : RBTree} (h : okRR t) : okRR (blacken t) := by
  cases t with
  | nil => trivial
  | node k c l r =>
    obtain ⟨_, hl, hr⟩ := h
    exact ⟨fun hc => absurd hc black_ne_red, hl, hr⟩

theorem bh_node_elim {k : Int} {c : Bool} {l r : RBTree} {n : Nat}
    (h : bhOpt (node k c l r) = some n) :
    ∃ nb, bhOpt l = some nb ∧ bhOpt r = some nb ∧
      n = nb + (if c = BLACK then 1 else 0) := by
  cases hbl : bhOpt l with
  | none => simp [bhOpt, hbl] at h
  | some a =>
    cases hbr : bhOpt r with
    | none => simp [bhOpt, hbl, hbr] at h
    | some b =>
      simp only [bhOpt, hbl, hbr] at h
      by_cases hab : a = b
      · subst hab
        rw [if_pos rfl] at h
        exact ⟨a, rfl, rfl, (Option.some_inj.mp h).symm⟩
      · rw [if_neg hab] at h
        simp at h

theorem bh_node_intro {k : Int} {c : Bool} {l r : RBTree} {nb : Nat}
    (hl : bhOpt l = some nb) (hr : bhOpt r = some nb) :
    bhOpt (node k c l r) = some (nb + (if c = BLACK then 1 else 0)) := by
  simp [bhOpt, hl, hr]

theorem bh_blacken {t : RBTree} {n : Nat} (h : bhOpt t = some n) :
    ∃ m, bhOpt (blacken t) = some m := by
  cases t with
  | nil => exact ⟨0, rfl⟩
  | node k c l r =>
    obtain ⟨nb, hl, hr, _⟩ := bh_node_elim h
    exact ⟨nb + 1, by simpa [BLACK] using bh_node_intro (k := k) (c := BLACK) hl hr⟩

theorem okRR_plug : ∀ (ctx : List REntry) {t : RBTree},
    okRR t → ctxRR ctx (isRed t) → okRR (plugR t ctx)
  | [], _, h, _ => h
  | ⟨RDir.L, pc, pk, s⟩ :: rest, t, h, hc => by
    obtain ⟨hs, himp, hrest⟩ := hc
    exact okRR_plug rest ⟨himp, h, hs⟩ hrest
  | ⟨RDir.R, pc, pk, s⟩ :: rest, t, h, hc => by
    obtain ⟨hs, himp, hrest⟩ := hc
    exact okRR_plug rest ⟨fun hpc => ⟨(himp hpc).2, (himp hpc).1⟩, hs, h⟩ hrest

theorem bh_plug : ∀ (ctx : List REntry) {t : RBTree} {n m : Nat},
    bhOpt t = some n → ctxBH ctx n = some m → bhOpt (plugR t ctx) = some m
  | [], _, n, m, ht, hc => by
    simp only [ctxBH, Option.some_inj] at hc
    exact hc ▸ ht
  | ⟨d, pc, pk, s⟩ :: rest, t, n, m, ht, hc => by
    cases hbs : bhOpt s with
    | none => simp [ctxBH, hbs] at hc
    | some ms =>
      simp only [ctxBH, hbs] at hc
      by_cases hms : ms = n
      · subst hms
        rw [if_pos rfl] at hc
        cases d with
        | L => exact bh_plug rest (bh_node_intro ht hbs) hc
        | R => exact bh_plug rest (bh_node_intro hbs ht) hc
      · rw [if_neg hms] at hc
        simp at hc

theorem ctxRRA_of_ctxRR : ∀ (ctx : List REntry) (c : Bool), ctxRR ctx c → ctxRRA ctx
  | [], _, _ => trivial
  | ⟨d, pc, pk, s⟩ :: rest, c, h => ⟨h.1, fun hpc => (h.2.1 hpc).2, h.2.2⟩

theorem descendRB_ok : ∀ {t : RBTree} (key : Int) (ctx : List REntry) {n m : Nat},
    okRR t → bhOpt t = some n → ctxRR ctx (isRed t) → ctxBH ctx n = some m →
    ctxRRA (descendRB t key ctx) ∧ ctxBH (descendRB t key ctx) 0 = some m := by
  intro t
  induction t with
  | nil =>
    intro key ctx n m _ hbh hrr hbc
    have hn : n = 0 := by
      simp [bhOpt] at hbh
      omega
    subst hn
    exact ⟨ctxRRA_of_ctxRR ctx _ hrr, hbc⟩
  | node k c l r ihl ihr =>
    intro key ctx n m hok hbh hrr hbc
    obtain ⟨hred, hokl, hokr⟩ := hok
    obtain ⟨nb, hbl, hbr, hn⟩ := bh_node_elim hbh
    simp only [descendRB]
    by_cases hlt : key < k
    · rw [if_pos hlt]
      have hrr0 : ctxRR (⟨RDir.L, c, k, r⟩ :: ctx) (isRed l) :=
        ⟨hokr, fun hc => (hred hc), hrr⟩
      have hbc0 : ctxBH (⟨RDir.L, c, k, r⟩ :: ctx) nb = some m := by
        simp only [ctxBH, hbr, if_pos rfl]
        rw [← hn]
        exact hbc
      cases l with
      | nil =>
        have hnb : nb = 0 := by
          simp [bhOpt] at hbl
          omega
        subst hnb
        exact ⟨ctxRRA_of_ctxRR _ _ hrr0, hbc0⟩
      | node lk lc ll lr =>
        exact ihl key (⟨RDir.L, c, k, r⟩ :: ctx) hokl hbl hrr0 hbc0
    · rw [if_neg hlt]
      have hrr0 : ctxRR (⟨RDir.R, c, k, l⟩ :: ctx) (isRed r) :=
        ⟨hokl, fun hc => ⟨(hred hc).2, (hred hc).1⟩, hrr⟩
      have hbc0 : ctxBH (⟨RDir.R, c, k, l⟩ :: ctx) nb = some m := by
        simp only [ctxBH, hbl, if_pos rfl]
        rw [← hn]
        exact hbc
      cases r with
      | nil =>
        have hnb : nb = 0 := by
          simp [bhOpt] at hbr
          omega
        subst hnb
        exact ⟨ctxRRA_of_ctxRR _ _ hrr0, hbc0⟩
      | node rk rc rl rr =>
        exact ihr key (⟨RDir.R, c, k, l⟩ :: ctx) hokr hbr hrr0 hbc0

theorem ctxBH_cons_elim {d : RDir} {pc : Bool} {pk : Int} {s : RBTree}
    {rest : List REntry} {n m : Nat}
    (h : ctxBH (⟨d, pc, pk, s⟩ :: rest) n = some m) :
    bhOpt s = some n ∧ ctxBH rest (n + (if pc = BLACK then 1 else 0)) = some m := by
  cases hbs : bhOpt s with
  | none => simp [ctxBH, hbs] at h
  | some ms =>
    simp only [ctxBH, hbs] at h
    by_cases hms : ms = n
    · subst hms
      rw [if_pos rfl] at h
      exact ⟨rfl, h⟩
    · rw [if_neg hms] at h
      simp at h

theorem fix_eq_nil (x : RBTree) : insert_fixup x [] = blacken x := rfl

theorem fix_eq_black_nil (x : RBTree) (d : RDir) (pk : Int) (s : RBTree) :
    insert_fixup x [⟨d, BLACK, pk, s⟩]
      = blacken (plugR x [⟨d, BLACK, pk, s⟩]) := rfl

theorem fix_eq_black_cons (x : RBTree) (d : RDir) (pk : Int) (s : RBTree)
    (g : REntry) (rrest : List REntry) :
    insert_fixup x (⟨d, BLACK, pk, s⟩ :: g :: rrest)
      = blacken (plugR x (⟨d, BLACK, pk, s⟩ :: g :: rrest)) := rfl

theorem fix_eq_red_nil (x : RBTree) (d : RDir) (pk : Int) (s : RBTree) :
    insert_fixup x [⟨d, RED, pk, s⟩]
      = blacken (plugR x [⟨d, RED, pk, s⟩]) := rfl

theorem fix_eq_LL (x : RBTree) (pk : Int) (s : RBTree) (gc : Bool) (gk : Int)
    (u : RBTree) (rrest : List REntry) :
    insert_fixup x (⟨RDir.L, RED, pk, s⟩ :: ⟨RDir.L, gc, gk, u⟩ :: rrest)
      = if isRed u
        then insert_fixup (node gk RED (node pk BLACK x s) (blacken u)) rrest
        else blacken (plugR (node pk BLACK x (node gk RED s u)) rrest) := rfl

theorem fix_eq_LR (xk : Int) (xc : Bool) (xl xr : RBTree) (pk : Int)
    (s : RBTree) (gc : Bool) (gk : Int) (u : RBTree) (rrest : List REntry) :
    insert_fixup (node xk xc xl xr)
        (⟨RDir.R, RED, pk, s⟩ :: ⟨RDir.L, gc, gk, u⟩ :: rrest)
      = if isRed u
        then insert_fixup
          (node gk RED (node pk BLACK s (node xk xc xl xr)) (blacken u)) rrest
        else blacken (plugR
          (node xk BLACK (node pk RED s xl) (node gk RED xr u)) rrest) := rfl

theorem fix_eq_RR (x : RBTree) (pk : Int) (s : RBTree) (gc : Bool) (gk : Int)
    (u : RBTree) (rrest : List REntry) :
    insert_fixup x (⟨RDir.R, RED, pk, s⟩ :: ⟨RDir.R, gc, gk, u⟩ :: rrest)
      = if isRed u
        then insert_fixup (node gk RED (blacken u) (node pk BLACK s x)) rrest
        else blacken (plugR (node pk BLACK (node gk RED u s) x) rrest) := rfl

theorem fix_eq_RL (xk : Int) (xc : Bool) (xl xr : RBTree) (pk : Int)
    (s : RBTree) (gc : Bool) (gk : Int) (u : RBTree) (rrest : List REntry) :
    insert_fixup (node xk xc xl xr)
        (⟨RDir.L, RED, pk, s⟩ :: ⟨RDir.R, gc, gk, u⟩ :: rrest)
      = if isRed u
        then insert_fixup
          (node gk RED (blacken u) (node pk BLACK (node xk xc xl xr) s)) rrest
        else blacken (plugR
          (node xk BLACK (node gk RED u xl) (node pk RED xr s)) rrest) := rfl

theorem fix_eq_LR_nil (pk : Int) (s : RBTree) (gc : Bool) (gk : Int)
    (u : RBTree) (rrest : List REntry) :
    insert_fixup nil (⟨RDir.R, RED, pk, s⟩ :: ⟨RDir.L, gc, gk, u⟩ :: rrest)
      = if isRed u
        then insert_fixup (node gk RED (node pk BLACK s nil) (blacken u)) rrest
        else blacken (plugR nil
          (⟨RDir.R, RED, pk, s⟩ :: ⟨RDir.L, gc, gk, u⟩ :: rrest)) := rfl

theorem fix_eq_RL_nil (pk : Int) (s : RBTree) (gc : Bool) (gk : Int)
    (u : RBTree) (rrest : List REntry) :
    insert_fixup nil (⟨RDir.L, RED, pk, s⟩ :: ⟨RDir.R, gc, gk, u⟩ :: rrest)
      = if isRed u
        then insert_fixup (node gk RED (blacken u) (node pk BLACK nil s)) rrest
        else blacken (plugR nil
          (⟨RDir.L, RED, pk, s⟩ :: ⟨RDir.R, gc, gk, u⟩ :: rrest)) := rfl

theorem insert_fixup_ok :
    ∀ (ctx : List REntry) (xk : Int) (xl xr : RBTree) (n m : Nat),
      okRR (node xk RED xl xr) →
      bhOpt (node xk RED xl xr) = some n →
      ctxRRA ctx →
      ctxBH ctx n = some m →
      okRR (insert_fixup (node xk RED xl xr) ctx) ∧
        isRed (insert_fixup (node xk RED xl xr) ctx) = false ∧
        ∃ m', bhOpt (insert_fixup (node xk RED xl xr) ctx) = some m'
  | [], xk, xl, xr => by
    intro n m hok hbh _ _
    rw [fix_eq_nil]
    exact ⟨okRR_blacken hok, isRed_blacken _, bh_blacken hbh⟩
  | [⟨d, pc, pk, s⟩], xk, xl, xr => by
    intro n m hok hbh hca hcb
    obtain ⟨hs, _, _⟩ := hca
    have hbp : bhOpt (plugR (node xk RED xl xr) [⟨d, pc, pk, s⟩]) = some m :=
      bh_plug _ hbh hcb
    have hgoal : okRR (blacken (plugR (node xk RED xl xr) [⟨d, pc, pk, s⟩])) ∧
        isRed (blacken (plugR (node xk RED xl xr) [⟨d, pc, pk, s⟩])) = false ∧
        ∃ m', bhOpt (blacken (plugR (node xk RED xl xr) [⟨d, pc, pk, s⟩]))
          = some m' := by
      refine ⟨?_, isRed_blacken _, bh_blacken hbp⟩
      cases d with
      | L =>
        simp only [plugR, blacken]
        exact ⟨fun hh => absurd hh black_ne_red, hok, hs⟩
      | R =>
        simp only [plugR, blacken]
        exact ⟨fun hh => absurd hh black_ne_red, hs, hok⟩
    by_cases hpc : pc = BLACK
    · subst hpc
      rw [fix_eq_black_nil]
      exact hgoal
    · have hpcR : pc = RED := by
        cases pc
        · exact absurd rfl hpc
        · rfl
      subst hpcR
      rw [fix_eq_red_nil]
      exact hgoal
  | ⟨d, pc, pk, s⟩ :: ⟨gd, gc, gk, u⟩ :: rrest, xk, xl, xr => by
    intro n m hok hbh hca hcb
    obtain ⟨hs, hsRed, hrest⟩ := hca
    obtain ⟨hu, hgimp, hrrest⟩ := hrest
    obtain ⟨hbs, hcb1⟩ := ctxBH_cons_elim hcb
    by_cases hpc : pc = BLACK
    · subst hpc
      rw [fix_eq_black_cons]
      have hplug_rr : okRR (plugR (node xk RED xl xr)
          (⟨d, BLACK, pk, s⟩ :: ⟨gd, gc, gk, u⟩ :: rrest)) := by
        apply okRR_plug
        · exact hok
        · exact ⟨hs, fun hred => absurd hred black_ne_red,
            ⟨hu, hgimp, hrrest⟩⟩
      have hplug_bh := bh_plug _ hbh hcb
      exact ⟨okRR_blacken hplug_rr, isRed_blacken _, bh_blacken hplug_bh⟩
    · have hpcR : pc = RED := by
        cases pc
        · exact absurd rfl hpc
        · rfl
      subst hpcR
      have hsb : isRed s = false := hsRed rfl
      have hgc : gc = BLACK := by
        cases gc
        · rfl
        · exact absurd (hgimp rfl).1 (by simp [RED])
      subst hgc
      have hcb1' : ctxBH (⟨gd, BLACK, gk, u⟩ :: rrest) n = some m := by
        simpa [RED, BLACK] using hcb1
      obtain ⟨hbu, hcbr⟩ := ctxBH_cons_elim hcb1'
      have hcbr' : ctxBH rrest (n + 1) = some m := by
        simpa [BLACK] using hcbr
      have hrrB : ctxRR rrest false := hrrest
      obtain ⟨hxred, hoxl, hoxr⟩ := hok
      obtain ⟨hxl, hxr⟩ := hxred rfl
      obtain ⟨nbx, hbxl, hbxr, hnx⟩ := bh_node_elim hbh
      have hnbx : n = nbx := by
        simpa [RED, BLACK] using hnx
      subst hnbx
      cases gd with
      | L =>
        cases d with
        | L =>
          rw [fix_eq_LL]
          by_cases hured : isRed u = true
          · rw [if_pos hured]
            cases u with
            | nil => simp [isRed] at hured
            | node uk uc ul ur =>
              have hucR : uc = true := hured
              subst hucR
              obtain ⟨nbu, hbul, hbur, hnu⟩ := bh_node_elim hbu
              have hnbu : n = nbu := by
                simpa [RED, BLACK] using hnu
              subst hnbu
              have hbBu : bhOpt (blacken (node uk true ul ur))
                  = some (n + 1) := by
                simpa [blacken, BLACK] using
                  bh_node_intro (k := uk) (c := BLACK) hbul hbur
              have hokBu : okRR (blacken (node uk true ul ur)) :=
                okRR_blacken hu
              have hokX : okRR (node gk RED
                  (node pk BLACK (node xk RED xl xr) s)
                  (blacken (node uk true ul ur))) := by
                refine ⟨fun _ => ⟨rfl, isRed_blacken _⟩, ?_, hokBu⟩
                exact ⟨fun hh => absurd hh black_ne_red, ⟨hxred, hoxl, hoxr⟩, hs⟩
              have hbX : bhOpt (node gk RED
                  (node pk BLACK (node xk RED xl xr) s)
                  (blacken (node uk true ul ur))) = some (n + 1) := by
                have h1 : bhOpt (node pk BLACK (node xk RED xl xr) s)
                    = some (n + 1) := by
                  simpa [BLACK] using
                    bh_node_intro (k := pk) (c := BLACK) hbh hbs
                simpa [RED, BLACK] using
                  bh_node_intro (k := gk) (c := RED) h1 hbBu
              exact insert_fixup_ok rrest gk _ _ _ _ hokX hbX
                (ctxRRA_of_ctxRR rrest false hrrB) hcbr'
          · rw [if_neg hured]
            have husb : isRed u = false := by
              simpa using hured
            have hokR : okRR (node pk BLACK (node xk RED xl xr)
                (node gk RED s u)) := by
              exact ⟨fun hh => absurd hh black_ne_red,
                ⟨hxred, hoxl, hoxr⟩, fun _ => ⟨hsb, husb⟩, hs, hu⟩
            have hbR : bhOpt (node pk BLACK (node xk RED xl xr)
                (node gk RED s u)) = some (n + 1) := by
              have h1 : bhOpt (node gk RED s u) = some n := by
                simpa [RED, BLACK] using
                  bh_node_intro (k := gk) (c := RED) hbs hbu
              simpa [BLACK] using
                bh_node_intro (k := pk) (c := BLACK) hbh h1
            have hplug_rr := okRR_plug rrest hokR (by simpa [isRed] using hrrB)
            have hplug_bh := bh_plug rrest hbR hcbr'
            exact ⟨okRR_blacken hplug_rr, isRed_blacken _, bh_blacken hplug_bh⟩
        | R =>
          rw [fix_eq_LR]
          by_cases hured : isRed u = true
          · rw [if_pos hured]
            cases u with
            | nil => simp [isRed] at hured
            | node uk uc ul ur =>
              have hucR : uc = true := hured
              subst hucR
              obtain ⟨nbu, hbul, hbur, hnu⟩ := bh_node_elim hbu
              have hnbu : n = nbu := by
                simpa [RED, BLACK] using hnu
              subst hnbu
              have hbBu : bhOpt (blacken (node uk true ul ur))
                  = some (n + 1) := by
                simpa [blacken, BLACK] using
                  bh_node_intro (k := uk) (c := BLACK) hbul hbur
              have hokBu : okRR (blacken (node uk true ul ur)) :=
                okRR_blacken hu
              have hokX : okRR (node gk RED
                  (node pk BLACK s (node xk RED xl xr))
                  (blacken (node uk true ul ur))) := by
                refine ⟨fun _ => ⟨rfl, isRed_blacken _⟩, ?_, hokBu⟩
                exact ⟨fun hh => absurd hh black_ne_red, hs, ⟨hxred, hoxl, hoxr⟩⟩
              have hbX : bhOpt (node gk RED
                  (node pk BLACK s (node xk RED xl xr))
                  (blacken (node uk true ul ur))) = some (n + 1) := by
                have h1 : bhOpt (node pk BLACK s (node xk RED xl xr))
                    = some (n + 1) := by
                  simpa [BLACK] using
                    bh_node_intro (k := pk) (c := BLACK) hbs hbh
                simpa [RED, BLACK] using
                  bh_node_intro (k := gk) (c := RED) h1 hbBu
              exact insert_fixup_ok rrest gk _ _ _ _ hokX hbX
                (ctxRRA_of_ctxRR rrest false hrrB) hcbr'
          · rw [if_neg hured]
            have husb : isRed u = false := by
              simpa using hured
            have hokR : okRR (node xk BLACK (node pk RED s xl)
                (node gk RED xr u)) := by
              exact ⟨fun hh => absurd hh black_ne_red,
                ⟨fun _ => ⟨hsb, hxl⟩, hs, hoxl⟩,
                fun _ => ⟨hxr, husb⟩, hoxr, hu⟩
            have hbR : bhOpt (node xk BLACK (node pk RED s xl)
                (node gk RED xr u)) = some (n + 1) := by
              have h1 : bhOpt (node pk RED s xl) = some n := by
                simpa [RED, BLACK] using
                  bh_node_intro (k := pk) (c := RED) hbs hbxl
              have h2 : bhOpt (node gk RED xr u) = some n := by
                simpa [RED, BLACK] using
                  bh_node_intro (k := gk) (c := RED) hbxr hbu
              simpa [BLACK] using
                bh_node_intro (k := xk) (c := BLACK) h1 h2
            have hplug_rr := okRR_plug rrest hokR (by simpa [isRed] using hrrB)
            have hplug_bh := bh_plug rrest hbR hcbr'
            exact ⟨okRR_blacken hplug_rr, isRed_blacken _, bh_blacken hplug_bh⟩
      | R =>
        cases d with
        | R =>
          rw [fix_eq_RR]
          by_cases hured : isRed u = true
          · rw [if_pos hured]
            cases u with
            | nil => simp [isRed] at hured
            | node uk uc ul ur =>
              have hucR : uc = true := hured
              subst hucR
              obtain ⟨nbu, hbul, hbur, hnu⟩ := bh_node_elim hbu
              have hnbu : n = nbu := by
                simpa [RED, BLACK] using hnu
              subst hnbu
              have hbBu : bhOpt (blacken (node uk true ul ur))
                  = some (n + 1) := by
                simpa [blacken, BLACK] using
                  bh_node_intro (k := uk) (c := BLACK) hbul hbur
              have hokBu : okRR (blacken (node uk true ul ur)) :=
                okRR_blacken hu
              have hokX : okRR (node gk RED (blacken (node uk true ul ur))
                  (node pk BLACK s (node xk RED xl xr))) := by
                refine ⟨fun _ => ⟨isRed_blacken _, rfl⟩, hokBu, ?_⟩
                exact ⟨fun hh => absurd hh black_ne_red, hs, ⟨hxred, hoxl, hoxr⟩⟩
              have hbX : bhOpt (node gk RED (blacken (node uk true ul ur))
                  (node pk BLACK s (node xk RED xl xr))) = some (n + 1) := by
                have h1 : bhOpt (node pk BLACK s (node xk RED xl xr))
                    = some (n + 1) := by
                  simpa [BLACK] using
                    bh_node_intro (k := pk) (c := BLACK) hbs hbh
                simpa [RED, BLACK] using
                  bh_node_intro (k := gk) (c := RED) hbBu h1
              exact insert_fixup_ok rrest gk _ _ _ _ hokX hbX
                (ctxRRA_of_ctxRR rrest false hrrB) hcbr'
          · rw [if_neg hured]
            have husb : isRed u = false := by
              simpa using hured
            have hokR : okRR (node pk BLACK (node gk RED u s)
                (node xk RED xl xr)) := by
              exact ⟨fun hh => absurd hh black_ne_red,
                ⟨fun _ => ⟨husb, hsb⟩, hu, hs⟩, ⟨hxred, hoxl, hoxr⟩⟩
            have hbR : bhOpt (node pk BLACK (node gk RED u s)
                (node xk RED xl xr)) = some (n + 1) := by
              have h1 : bhOpt (node gk RED u s) = some n := by
                simpa [RED, BLACK] using
                  bh_node_intro (k := gk) (c := RED) hbu hbs
              simpa [BLACK] using
                bh_node_intro (k := pk) (c := BLACK) h1 hbh
            have hplug_rr := okRR_plug rrest hokR (by simpa [isRed] using hrrB)
            have hplug_bh := bh_plug rrest hbR hcbr'
            exact ⟨okRR_blacken hplug_rr, isRed_blacken _, bh_blacken hplug_bh⟩
        | L =>
          rw [fix_eq_RL]
          by_cases hured : isRed u = true
          · rw [if_pos hured]
            cases u with
            | nil => simp [isRed] at hured
            | node uk uc ul ur =>
              have hucR : uc = true := hured
              subst hucR
              obtain ⟨nbu, hbul, hbur, hnu⟩ := bh_node_elim hbu
              have hnbu : n = nbu := by
                simpa [RED, BLACK] using hnu
              subst hnbu
              have hbBu : bhOpt (blacken (node uk true ul ur))
                  = some (n + 1) := by
                simpa [blacken, BLACK] using
                  bh_node_intro (k := uk) (c := BLACK) hbul hbur
              have hokBu : okRR (blacken (node uk true ul ur)) :=
                okRR_blacken hu
              have hokX : okRR (node gk RED (blacken (node uk true ul ur))
                  (node pk BLACK (node xk RED xl xr) s)) := by
                refine ⟨fun _ => ⟨isRed_blacken _, rfl⟩, hokBu, ?_⟩
                exact ⟨fun hh => absurd hh black_ne_red, ⟨hxred, hoxl, hoxr⟩, hs⟩
              have hbX : bhOpt (node gk RED (blacken (node uk true ul ur))
                  (node pk BLACK (node xk RED xl xr) s)) = some (n + 1) := by
                have h1 : bhOpt (node pk BLACK (node xk RED xl xr) s)
                    = some (n + 1) := by
                  simpa [BLACK] using
                    bh_node_intro (k := pk) (c := BLACK) hbh hbs
                simpa [RED, BLACK] using
                  bh_node_intro (k := gk) (c := RED) hbBu h1
              exact insert_fixup_ok rrest gk _ _ _ _ hokX hbX
                (ctxRRA_of_ctxRR rrest false hrrB) hcbr'
          · rw [if_neg hured]
            have husb : isRed u = false := by
              simpa using hured
            have hokR : okRR (node xk BLACK (node gk RED u xl)
                (node pk RED xr s)) := by
              exact ⟨fun hh => absurd hh black_ne_red,
                ⟨fun _ => ⟨husb, hxl⟩, hu, hoxl⟩,
                fun _ => ⟨hxr, hsb⟩, hoxr, hs⟩
            have hbR : bhOpt (node xk BLACK (node gk RED u xl)
                (node pk RED xr s)) = some (n + 1) := by
              have h1 : bhOpt (node gk RED u xl) = some n := by
                simpa [RED, BLACK] using
                  bh_node_intro (k := gk) (c := RED) hbu hbxl
              have h2 : bhOpt (node pk RED xr s) = some n := by
                simpa [RED, BLACK] using
                  bh_node_intro (k := pk) (c := RED) hbxr hbs
              simpa [BLACK] using
                bh_node_intro (k := xk) (c := BLACK) h1 h2
            have hplug_rr := okRR_plug rrest hokR (by simpa [isRed] using hrrB)
            have hplug_bh := bh_plug rrest hbR hcbr'
            exact ⟨okRR_blacken hplug_rr, isRed_blacken _, bh_blacken hplug_bh⟩

theorem bh_nil_valid : bhOpt RBTree.nil = some 0 := rfl

theorem insert_rb_valid {t : RBTree} (h : RBValid t) (key : Int) :
    RBValid (insert_rb t key) := by
  obtain ⟨hok, hroot, n, hbh⟩ := h
  have hoknew : okRR (node key RED nil nil) :=
    ⟨fun _ => ⟨rfl, rfl⟩, trivial, trivial⟩
  have hbhnew : bhOpt (node key RED nil nil) = some 0 := by
    simp [bhOpt, RED, BLACK]
  cases t with
  | nil =>
    have := insert_fixup_ok [] key nil nil 0 0 hoknew hbhnew trivial rfl
    exact ⟨this.1, this.2.1, this.2.2⟩
  | node k c l r =>
    have hdes := descendRB_ok key [] hok hbh trivial
      (by rfl : ctxBH [] n = some n)
    obtain ⟨hca, hcb⟩ := hdes
    have := insert_fixup_ok (descendRB (node k c l r) key []) key nil nil 0 n
      hoknew hbhnew hca hcb
    exact ⟨this.1, this.2.1, this.2.2⟩

theorem rb_foldl_valid (ks : List Int) :
    RBValid (List.foldl insert_rb RBTree.nil ks) := by
  suffices h : ∀ t, RBValid t → RBValid (List.foldl insert_rb t ks) by
    exact h _ ⟨trivial, rfl, 0, rfl⟩
  induction ks with
  | nil => exact fun t h => h
  | cons a ks ih => exact fun t h => ih _ (insert_rb_valid h a)

theorem paths_of_bh : ∀ {t : RBTree} {n : Nat}, bhOpt t = some n →
    ∀ c ∈ pathsBlackCounts t, c = n := by
  intro t
  induction t with
  | nil =>
    intro n h c hc
    simp [bhOpt] at h
    simp [pathsBlackCounts] at hc
    omega
  | node k cl l r ihl ihr =>
    intro n h c hc
    obtain ⟨nb, hl, hr, hn⟩ := bh_node_elim h
    simp only [pathsBlackCounts, List.mem_map, List.mem_append] at hc
    obtain ⟨a, ha, rfl⟩ := hc
    rcases ha with ha | ha
    · rw [ihl hl a ha]
      omega
    · rw [ihr hr a ha]
      omega

theorem keysMR_blacken (t : RBTree) : keysMR (blacken t) = keysMR t := by
  cases t <;> rfl

theorem keysMR_plug : ∀ (ctx : List REntry) (t : RBTree),
    keysMR (plugR t ctx) = keysMR t + keysMCtx ctx
  | [], t => by simp [plugR, keysMCtx]
  | ⟨RDir.L, c, k, sib⟩ :: rest, t => by
    simp only [plugR, keysMR_plug rest, keysMR, keysMCtx,
      ← Multiset.singleton_add]
    abel
  | ⟨RDir.R, c, k, sib⟩ :: rest, t => by
    simp only [plugR, keysMR_plug rest, keysMR, keysMCtx,
      ← Multiset.singleton_add]
    abel

theorem keysMR_fixup :
    ∀ (ctx : List REntry) (x : RBTree),
      keysMR (insert_fixup x ctx) = keysMR x + keysMCtx ctx
  | [], x => by
    rw [fix_eq_nil, keysMR_blacken]
    simp [keysMCtx]
  | [⟨d, pc, pk, s⟩], x => by
    have hres : insert_fixup x [⟨d, pc, pk, s⟩]
        = blacken (plugR x [⟨d, pc, pk, s⟩]) := by
      by_cases hpc : pc = BLACK
      · subst hpc
        exact fix_eq_black_nil x d pk s
      · have hpcR : pc = RED := by
          cases pc
          · exact absurd rfl hpc
          · rfl
        subst hpcR
        exact fix_eq_red_nil x d pk s
    rw [hres, keysMR_blacken, keysMR_plug]
  | ⟨d, pc, pk, s⟩ :: ⟨gd, gc, gk, u⟩ :: rrest, x => by
    by_cases hpc : pc = BLACK
    · subst hpc
      rw [fix_eq_black_cons, keysMR_blacken, keysMR_plug]
    · have hpcR : pc = RED := by
        cases pc
        · exact absurd rfl hpc
        · rfl
      subst hpcR
      cases gd with
      | L =>
        cases d with
        | L =>
          rw [fix_eq_LL]
          by_cases hured : isRed u = true
          · rw [if_pos hured]
            rw [keysMR_fixup rrest]
            simp only [keysMR, keysMCtx, keysMR_blacken,
              ← Multiset.singleton_add]
            abel
          · rw [if_neg hured, keysMR_blacken, keysMR_plug]
            simp only [keysMR, keysMCtx, ← Multiset.singleton_add]
            abel
        | R =>
          cases x with
          | nil =>
            rw [fix_eq_LR_nil]
            by_cases hured : isRed u = true
            · rw [if_pos hured]
              rw [keysMR_fixup rrest]
              simp only [keysMR, keysMCtx, keysMR_blacken,
                ← Multiset.singleton_add]
              abel
            · rw [if_neg hured, keysMR_blacken, keysMR_plug]
          | node xk xc xl xr =>
            rw [fix_eq_LR]
            by_cases hured : isRed u = true
            · rw [if_pos hured]
              rw [keysMR_fixup rrest]
              simp only [keysMR, keysMCtx, keysMR_blacken,
                ← Multiset.singleton_add]
              abel
            · rw [if_neg hured, keysMR_blacken, keysMR_plug]
              simp only [keysMR, keysMCtx, ← Multiset.singleton_add]
              abel
      | R =>
        cases d with
        | R =>
          rw [fix_eq_RR]
          by_cases hured : isRed u = true
          · rw [if_pos hured]
            rw [keysMR_fixup rrest]
            simp only [keysMR, keysMCtx, keysMR_blacken,
              ← Multiset.singleton_add]
            abel
          · rw [if_neg hured, keysMR_blacken, keysMR_plug]
            simp only [keysMR, keysMCtx, ← Multiset.singleton_add]
            abel
        | L =>
          cases x with
          | nil =>
            rw [fix_eq_RL_nil]
            by_cases hured : isRed u = true
            · rw [if_pos hured]
              rw [keysMR_fixup rrest]
              simp only [keysMR, keysMCtx, keysMR_blacken,
                ← Multiset.singleton_add]
              abel
            · rw [if_neg hured, keysMR_blacken, keysMR_plug]
          | node xk xc xl xr =>
            rw [fix_eq_RL]
            by_cases hured : isRed u = true
            · rw [if_pos hured]
              rw [keysMR_fixup rrest]
              simp only [keysMR, keysMCtx, keysMR_blacken,
                ← Multiset.singleton_add]
              abel
            · rw [if_neg hured, keysMR_blacken, keysMR_plug]
              simp only [keysMR, keysMCtx, ← Multiset.singleton_add]
              abel

theorem keysMCtx_descend : ∀ {t : RBTree} (key : Int) (ctx : List REntry),
    keysMCtx (descendRB t key ctx) = keysMR t + keysMCtx ctx := by
  intro t
  induction t with
  | nil =>
    intro key ctx
    simp [descendRB, keysMR]
  | node k c l r ihl ihr =>
    intro key ctx
    simp only [descendRB]
    by_cases hlt : key < k
    · rw [if_pos hlt]
      cases l with
      | nil =>
        simp only [keysMCtx, keysMR, ← Multiset.singleton_add]
        abel
      | node lk lc ll lr =>
        rw [ihl]
        simp only [keysMCtx, keysMR, ← Multiset.singleton_add]
        abel
    · rw [if_neg hlt]
      cases r with
      | nil =>
        simp only [keysMCtx, keysMR, ← Multiset.singleton_add]
        abel
      | node rk rc rl rr =>
        rw [ihr]
        simp only [keysMCtx, keysMR, ← Multiset.singleton_add]
        abel

theorem keysMR_insert_rb (t : RBTree) (key : Int) :
    keysMR (insert_rb t key) = key ::ₘ keysMR t := by
  cases t with
  | nil =>
    simp [insert_rb, keysMR_fixup, keysMR, keysMCtx]
  | node k c l r =>
    simp only [insert_rb, keysMR_fixup, keysMCtx_descend, keysMCtx, keysMR,
      ← Multiset.singleton_add]
    abel

end RB




namespace SB

open SBTree

theorem fix_sizebalance_two (t : SBTree) :
    fix_sizebalance t 2 = fix_sizebalance_int t := by
  cases t with
  | nil => rfl
  | node k l r s =>
    have h1 : ((get_size l : Rat) > 2 * (get_size r : Rat) ∧ l ≠ nil) ↔
        (get_size l > 2 * get_size r ∧ l ≠ nil) := by
      constructor <;> rintro ⟨h, h2⟩ <;> exact ⟨by exact_mod_cast h, h2⟩
    have h2 : ((get_size r : Rat) > 2 * (get_size l : Rat) ∧ r ≠ nil) ↔
        (get_size r > 2 * get_size l ∧ r ≠ nil) := by
      constructor <;> rintro ⟨h, h2⟩ <;> exact ⟨by exact_mod_cast h, h2⟩
    simp only [fix_sizebalance, fix_sizebalance_int, h1, h2]

theorem insert_sizebst_two : ∀ (t : SBTree) (key : Int),
    insert_sizebst t key 2 = insert_sizebst_int t key := by
  intro t
  induction t with
  | nil => intro key; rfl
  | node k l r s ihl ihr =>
    intro key
    simp only [insert_sizebst, insert_sizebst_int, fix_sizebalance_two]
    by_cases h : key < k
    · rw [if_pos h, if_pos h, ihl]
    · rw [if_neg h, if_neg h, ihr]

theorem scenario5_eq :
    scenario5 =
      node 10 (node 5 (node 3 nil nil 1) (node 6 nil (node 7 nil nil 1) 2) 4)
        (node 20 (node 15 nil nil 1) nil 2) 7 := by
  simp only [scenario5, List.foldl_cons, List.foldl_nil, insert_sizebst_two]
  decide

end SB

/-! ## The claims -/

/-- C1: for every sequence of insert and delete operations applied to an
initially empty binary search tree (`BST.insert` / `BST.delete`), the
in-order traversal taken after the sequence yields the stored keys in
strictly ascending order. -/
theorem C1_bst_inorder_sorted (ops : List BSTF.Op) :
    List.Pairwise (· < ·) (BSTF.in_order (BSTF.applyOps ops)) :=
  BSTF.sorted_in_order (BSTF.ordered_foldl BSTF.ordered_nil ops)

/-- C2, counterexample: the key sequence `10, 20, 20` (which repeats a key)
inserted with `insert_avl` into an empty tree produces a tree whose root has
balance factor `-2`, so the claim as stated — for every sequence of keys —
fails: `insert_avl` sends a duplicate key to the right subtree and the
rebalancing cases, all guarded by strict key comparisons, do not fire. -/
theorem C2_counterexample :
    ¬ AVL.Balanced (List.foldl AVL.insert_avl AVL.AVLTree.nil [10, 20, 20]) := by
  decide

/-- C2, amended: for every sequence of pairwise-distinct keys inserted with
`insert_avl` into an initially empty AVL tree, every node of the resulting
tree satisfies `|height(left) - height(right)| ≤ 1`.  As every prefix of a
duplicate-free sequence is duplicate-free, the balance holds after every
insert of such a sequence. -/
theorem C2_avl_balanced (ks : List Int) (h : ks.Nodup) :
    AVL.Balanced (List.foldl AVL.insert_avl AVL.AVLTree.nil ks) :=
  AVL.insert_avl_foldl (by trivial) (by trivial) ks h
    (fun x _ hx => absurd hx (List.not_mem_nil x))

/-- Witness for C2 at the concrete duplicate-free sequence `10, 20, 30`
(which exercises the left-rotation case of the rebalance). -/
theorem C2_witness :
    ([10, 20, 30] : List Int).Nodup ∧
    AVL.Balanced (List.foldl AVL.insert_avl AVL.AVLTree.nil [10, 20, 30]) :=
  ⟨by decide, C2_avl_balanced [10, 20, 30] (by decide)⟩

/-- C3: for every sequence of keys inserted with `insert_rb` into an
initially empty red-black tree, the resulting tree has no RED node with a
RED child, every root-to-leaf path carries the same number of BLACK nodes,
and the root is BLACK.  Since this holds for every sequence, it holds after
every insert of any sequence. -/
theorem C3_rb_invariants (ks : List Int) :
    RB.okRR (List.foldl RB.insert_rb RB.RBTree.nil ks) ∧
    (∀ a ∈ RB.pathsBlackCounts (List.foldl RB.insert_rb RB.RBTree.nil ks),
      ∀ b ∈ RB.pathsBlackCounts (List.foldl RB.insert_rb RB.RBTree.nil ks),
        a = b) ∧
    RB.isRed (List.foldl RB.insert_rb RB.RBTree.nil ks) = false := by
  obtain ⟨hok, hroot, n, hbh⟩ := RB.rb_foldl_valid ks
  refine ⟨hok, ?_, hroot⟩
  intro a ha b hb
  rw [RB.paths_of_bh hbh a ha, RB.paths_of_bh hbh b hb]

/-- C4, counterexample: inserting `10, 5, 15, 3, 7, 20, 6` with
`insert_sizebst` at ratio `2.0` does NOT give every node the claimed ratio
bound when an absent child counts as size 0: `fix_sizebalance` only rotates
when the oversized side is a non-`None` child and does not re-check after a
rotation, and the final tree contains a node whose only child has size
above `2.0 * 0`. -/
theorem C4_counterexample : ¬ SB.SizeRatioOK SB.scenario5 := by
  rw [SB.scenario5_eq]
  decide

/-- C4, amended: in the tree built by inserting `10, 5, 15, 3, 7, 20, 6`
with `insert_sizebst` at ratio `2.0`, every node BOTH of whose children are
present satisfies the ratio bound: neither child subtree's size exceeds
twice the size of its sibling. -/
theorem C4_sizebalanced_two_children : SB.SizeRatioOK2 SB.scenario5 := by
  rw [SB.scenario5_eq]
  decide

/-- C5, counterexample: inserting a key that is already present is NOT a
no-op for `insert_avl` and `insert_rb`: both send a duplicate key to the
right subtree and return a structurally different tree (with the key now
stored twice), so only `BST.insert` silently ignores duplicates. -/
theorem C5_counterexample :
    AVL.insert_avl (AVL.insert_avl AVL.AVLTree.nil 5) 5 ≠
      AVL.insert_avl AVL.AVLTree.nil 5 ∧
    RB.insert_rb (RB.insert_rb RB.RBTree.nil 5) 5 ≠
      RB.insert_rb RB.RBTree.nil 5 := by
  decide

/-- C5, amended: the three inserts have different duplicate-key policies.
`BST.insert` is a silent no-op on a present key (the equal key falls
through both strict comparisons and the tree is returned unchanged), while
`insert_avl` and `insert_rb` treat a duplicate like any other key that is
not smaller: each inserts a second copy into the right subtree, growing
the key multiset by one occurrence. -/
theorem C5_duplicate_policy :
    (∀ (t : BSTF.BSTree) (k : Int),
      BSTF.search t k = true → BSTF.insertRec t k = t) ∧
    (∀ (t : AVL.AVLTree) (k : Int),
      (AVL.keysA (AVL.insert_avl t k)).count k = (AVL.keysA t).count k + 1) ∧
    (∀ (t : RB.RBTree) (k : Int),
      RB.keysMR (RB.insert_rb t k) = k ::ₘ RB.keysMR t) :=
  ⟨fun _ _ h => BSTF.insertRec_eq_of_search h,
   fun t k => AVL.count_keysA_insert_avl t k,
   fun t k => RB.keysMR_insert_rb t k⟩

/-- C6, counterexample: `BST.delete` does not return a boolean in either
direction — its body is a bare assignment with no return statement, so the
call returns `None` both when the key is present and removed and when the
key is absent. -/
theorem C6_counterexample :
    BSTF.deleteRet (BSTF.insertRec BSTF.BSTree.nil 5) 5 ≠ PyVal.bool true ∧
    BSTF.deleteRet BSTF.BSTree.nil 5 ≠ PyVal.bool false := by
  decide

/-- C6, amended: for every tree and key, `BST.delete` returns `None` (never
a boolean); the removal semantics themselves are as claimed: deleting an
absent key leaves the tree entirely unchanged (a no-op on a miss), and on a
search-ordered tree the deleted key is absent afterwards. -/
theorem C6_delete_semantics (t : BSTF.BSTree) (k : Int) :
    BSTF.deleteRet t k = PyVal.none ∧
    (k ∉ BSTF.in_order t → BSTF.deleteRec t k = t) ∧
    (BSTF.Ordered t → k ∉ BSTF.in_order (BSTF.deleteRec t k)) :=
  ⟨rfl, fun h => BSTF.deleteRec_eq_of_not_mem h,
   fun h => BSTF.not_mem_deleteRec h k⟩

/-- C7: inserting `10, 20, 5, 6, 12, 30, 7, 17` with `btree_insert` at
`t = 2` into an empty B-tree yields a tree in which every leaf is at the
same depth and every non-root node holds between `t-1` and `2t-1` keys; its
in-order traversal is `[5, 6, 7, 10, 12, 17, 20, 30]`; `btree_search`
returns `false` for key `11` and `true` for key `17`. -/
theorem C7_btree_scenario :
    List.Pairwise (· = ·) (BT.leafDepthsOf 32 BT.scenario3) ∧
    BT.nonRootCountOKOf 32 2 BT.scenario3 = true ∧
    BT.inorder_traverse 32 BT.scenario3 = [5, 6, 7, 10, 12, 17, 20, 30] ∧
    BT.btree_search 32 BT.scenario3 11 = false ∧
    BT.btree_search 32 BT.scenario3 17 = true := by
  decide

/-- C8: for every sequence of keys with arbitrary per-node priority draws,
after every insert the treap satisfies the configured heap orientation:
with `insert_treap` (006, max-heap) every node's priority is ≥ both
children's, and with `treap_insert` (015, min-heap) every node's priority
is ≤ both children's.  Since this holds for every sequence of key/priority
pairs, it holds after every insert of any sequence. -/
theorem C8_treap_heap_order (ops : List (Int × Rat)) :
    Treap.MaxHeap
      (List.foldl (fun a kp => Treap.insert_treap a kp.1 kp.2)
        TreapTree.nil ops) ∧
    Treap.MinHeap
      (List.foldl (fun a kp => Treap.treap_insert a kp.1 kp.2)
        TreapTree.nil ops) :=
  ⟨Treap.maxHeap_foldl ops TreapTree.nil trivial,
   Treap.minHeap_foldl ops TreapTree.nil trivial⟩

/-- C9: after inserting `10, 20, 5, 15, 25` with `insert_splay` into an
empty splay tree, `search_splay 5` returns a tree whose root key is `5`,
and that tree still contains exactly the keys `5, 10, 15, 20, 25` in BST
order (its in-order traversal is the sorted list of those keys). -/
theorem C9_splay_search_scenario :
    (Splay.search_splay
      (List.foldl Splay.insert_splay Splay.STree.nil [10, 20, 5, 15, 25])
      5).map Splay.rootKey = some 5 ∧
    (Splay.search_splay
      (List.foldl Splay.insert_splay Splay.STree.nil [10, 20, 5, 15, 25])
      5).map Splay.inorderS = some [5, 10, 15, 20, 25] := by
  decide

/-- C10: `search_splay` on an empty tree returns `None`; on a non-empty
tree that does not contain the key it still restructures the tree — it
returns a tree whose root is the last node visited on the search path
(splayed to the root) and whose in-order traversal, hence BST order and
stored key multiset, is unchanged. -/
theorem C10_splay_search_miss (t : Splay.STree) (key : Int) :
    Splay.search_splay Splay.STree.nil key = none ∧
    (t ≠ Splay.STree.nil → key ∉ Splay.inorderS t →
      ∃ t', Splay.search_splay t key = some t' ∧
        Splay.inorderS t' = Splay.inorderS t ∧
        some (Splay.rootKey t') = Splay.last_visited t key) := by
  refine ⟨rfl, ?_⟩
  intro h1 h2
  obtain ⟨t', heq, hin, hlast⟩ := Splay.search_splay_go_miss [] h1 h2
  exact ⟨t', heq, hin, hlast⟩
